import Mathlib

/-!
Verification development for the changelog document engine of
dune-release-action.

The engine (parser, queries, validation, mutation layer, formatter and
commit-entry formatter) is shipped as a compiled library whose TypeScript
source is not part of the repository snapshot; only its test-suite,
its callers and the specification are.  The definitions below therefore
carry the marker "Modelled from the spec:" and follow the specification's
wording (sections 3, 4 and 7 of the spec), at the granularity the claims
need.  `toCommitEntry` and `cleanCommitMessage` are embedded directly from
`src/update-changelog.ts`, which is present in the snapshot.

Strings are handled through their character lists; documents are handled
as lists of lines obtained by splitting at newline characters, mirroring
the line-oriented document format of the spec.
-/

/-- JavaScript whitespace (the ECMAScript WhiteSpace and LineTerminator
code points), as matched by the regex class backslash-s and by
`String.prototype.trim`. -/
def jsSpace (c : Char) : Bool :=
  c == ' ' || c == '\t' || c == '\n' || c == '\r' ||
  c.toNat == 0x0b || c.toNat == 0x0c || c.toNat == 0xa0 || c.toNat == 0xfeff ||
  c.toNat == 0x1680 || decide (0x2000 ≤ c.toNat ∧ c.toNat ≤ 0x200a) ||
  c.toNat == 0x2028 || c.toNat == 0x2029 || c.toNat == 0x202f ||
  c.toNat == 0x205f || c.toNat == 0x3000

/-- JS `String.prototype.trim`. -/
def jsTrim (s : String) : String :=
  String.mk (((s.data.dropWhile jsSpace).reverse.dropWhile jsSpace).reverse)

/-- Git commit metadata, from `src/update-changelog.ts` (`CommitInfo`). -/
structure CommitInfo where
  sha : String
  message : String
  author : String
  authorHandle : Option String
  prNumber : Option Nat
  deriving Repr, DecidableEq

/-- A structured change record prior to formatting (spec section 3,
`CommitEntry`). -/
structure CommitEntry where
  message : String
  author : String
  prNumber : Option Nat
  commitSha : Option String
  repoUrl : Option String
  deriving Repr, DecidableEq

/-- Match of the anchored regex of `toCommitEntry`
(whitespace, then a parenthesized hash-number group, at end of string),
on the reversed character list.  Returns the reversed kept part when the
suffix matches. -/
def stripPRSuffixRev (rev : List Char) : Option (List Char) :=
  match rev with
  | ')' :: r1 =>
    let ds := r1.takeWhile Char.isDigit
    let r2 := r1.dropWhile Char.isDigit
    if ds.isEmpty then none
    else
      match r2 with
      | '#' :: '(' :: r3 => some (r3.dropWhile jsSpace)
      | _ => none
  | _ => none

/-- From `src/update-changelog.ts`, `toCommitEntry`:
`commit.message.replace(<anchored PR-ref regex>, '').trim()`. -/
def cleanCommitMessage (m : String) : String :=
  match stripPRSuffixRev m.data.reverse with
  | some revKept => jsTrim (String.mk revKept.reverse)
  | none => jsTrim m

/-- From `src/update-changelog.ts`: convert `CommitInfo` to `CommitEntry`.
The author is `commit.authorHandle || commit.author` (JS truthiness:
an empty-string handle falls back to the git author name). -/
def toCommitEntry (c : CommitInfo) (repoUrl : String) : CommitEntry :=
  { message := cleanCommitMessage c.message
    author :=
      match c.authorHandle with
      | some h => if h = "" then c.author else h
      | none => c.author
    prNumber := c.prNumber
    commitSha := none
    repoUrl := some repoUrl }

/-- Modelled from the spec: author normalization of the commit entry
formatter (spec 4.7 step 1): strip one leading at-sign if present. -/
def stripLeadingAt (a : String) : String :=
  match a.data with
  | '@' :: t => String.mk t
  | _ => a

/-- Modelled from the spec: first 7 characters of a commit sha (or fewer
if shorter), spec 4.7 step 2 case (c). -/
def shortSha (sha : String) : String := String.mk (sha.data.take 7)

/-- Modelled from the spec: the commit entry formatter, spec 4.7.
One markdown line; link suffix chosen by priority. -/
def formatCommitEntry (e : CommitEntry) : String :=
  let authorTag := "@" ++ stripLeadingAt e.author
  let suffix : Option String :=
    match e.prNumber with
    | some n =>
      match e.repoUrl with
      | some url => some ("([#" ++ toString n ++ "](" ++ url ++ "/pull/" ++ toString n ++ "))")
      | none => some ("(#" ++ toString n ++ ")")
    | none =>
      match e.commitSha, e.repoUrl with
      | some sha, some url =>
        some ("([" ++ shortSha sha ++ "](" ++ url ++ "/commit/" ++ sha ++ "))")
      | _, _ => none
  match suffix with
  | some s => "- " ++ e.message ++ " by " ++ authorTag ++ " " ++ s
  | none => "- " ++ e.message ++ " by " ++ authorTag

/-! ### Line splitting and joining (spec 2, Line Normalizer) -/

/-- Modelled from the spec: unify line-ending styles (CRLF and lone CR
become LF). -/
def normCR : List Char → List Char
  | [] => []
  | '\r' :: '\n' :: rest => '\n' :: normCR rest
  | '\r' :: rest => '\n' :: normCR rest
  | c :: rest => c :: normCR rest

/-- Split a character list at newline characters. -/
def splitNl : List Char → List (List Char)
  | [] => [[]]
  | c :: rest =>
    if c = '\n' then [] :: splitNl rest
    else
      match splitNl rest with
      | [] => [[c]]
      | l :: ls => (c :: l) :: ls

/-- Join line character lists with newline characters. -/
def joinNl : List (List Char) → List Char
  | [] => []
  | [l] => l
  | l :: ls => l ++ '\n' :: joinNl ls

/-- The lines of a string, after line-ending normalization. -/
def toLines (s : String) : List String :=
  (splitNl (normCR s.data)).map (fun cs => String.mk cs)

/-- Join lines back into a string. -/
def unlines (ls : List String) : String :=
  String.mk (joinNl (ls.map String.data))

/-- A blank line: empty or whitespace-only. -/
def isBlankS (l : String) : Bool := l.data.all Char.isWhitespace

/-- Trim surrounding whitespace of a character list. -/
def trimChars (cs : List Char) : List Char :=
  ((cs.dropWhile Char.isWhitespace).reverse.dropWhile Char.isWhitespace).reverse

/-- Trim surrounding whitespace of a string. -/
def trimS (s : String) : String := String.mk (trimChars s.data)

/-! ### Blank-line normalization (spec 4.6, Formatter) -/

/-- Normalize a blank line to the empty line. -/
def normBlank (l : String) : String := if isBlankS l then "" else l

/-- Collapse every run of consecutive blank lines to a single empty
line (spec 4.6: two-or-more consecutive blank lines never appear). -/
def collapse : List String → List String
  | [] => []
  | [a] => [normBlank a]
  | a :: b :: rest =>
    if isBlankS a && isBlankS b then collapse (b :: rest)
    else normBlank a :: collapse (b :: rest)

/-- Drop trailing blank lines. -/
def dropTrailBlanks : List String → List String
  | [] => []
  | a :: rest =>
    match dropTrailBlanks rest with
    | [] => if isBlankS a then [] else [a]
    | r => a :: r

/-- Full blank-line normalization used by the serializer: collapse runs,
then drop trailing and leading blank lines. -/
def squeezeTrim (ls : List String) : List String :=
  (dropTrailBlanks (collapse ls)).dropWhile isBlankS

/-- Trim surrounding blank lines of a block of lines (spec 4.2: raw
content is trimmed of surrounding blank lines, interior preserved). -/
def trimBlankEdges (ls : List String) : List String :=
  dropTrailBlanks (ls.dropWhile isBlankS)

/-! ### Header recognizer (spec 4.1) -/

/-- Characters allowed in a pre-release tag (e.g. "beta.1", "alpha",
"rc.2"). -/
def isTagChar (c : Char) : Bool := c.isAlphanum || c == '.' || c == '-'

/-- Scan the continuation of a numeric dotted version after its first
digit: further digits, and dot-separated numeric segments.  Returns the
consumed characters and the remainder. -/
def segTail : List Char → List Char × List Char
  | [] => ([], [])
  | c :: rest =>
    if c.isDigit then
      let p := segTail rest
      (c :: p.1, p.2)
    else if c = '.' then
      match rest with
      | [] => ([], c :: rest)
      | d :: rest2 =>
        if d.isDigit then
          let p := segTail rest2
          (c :: d :: p.1, p.2)
        else ([], c :: rest)
    else ([], c :: rest)

/-- Scan a version: one-or-more dot-separated numeric segments with an
optional hyphenated pre-release tag (spec 4.1).  Returns the version
characters and the remainder, or `none` when no digit starts here. -/
def versionChars (cs : List Char) : Option (List Char × List Char) :=
  match cs with
  | [] => none
  | c :: rest =>
    if c.isDigit then
      let p := segTail rest
      let seg := c :: p.1
      match p.2 with
      | '-' :: t =>
        let tg := t.takeWhile isTagChar
        if tg.isEmpty then some (seg, p.2)
        else some (seg ++ '-' :: tg, t.dropWhile isTagChar)
      | r => some (seg, r)
    else none

/-- Exactly the YYYY-MM-DD shape (spec 4.1: the date is extracted only
when the parenthetical matches exactly this form). -/
def isDateYMD (cs : List Char) : Bool :=
  match cs with
  | [a, b, c, d, h1, e, f, h2, g, k] =>
    a.isDigit && b.isDigit && c.isDigit && d.isDigit && h1 == '-' &&
    e.isDigit && f.isDigit && h2 == '-' && g.isDigit && k.isDigit
  | _ => false

/-- Modelled from the spec: version-header recognition (spec 4.1).
A 1-3 deep markup prefix, at least one space, an optional leading letter
v, a dotted numeric version with optional pre-release tag, and an
optional parenthetical; the date is kept only in exact YYYY-MM-DD form.
Returns the stored version (without leading v) and the optional date. -/
def parseVersionHeaderLine (line : String) : Option (String × Option String) :=
  let cs := line.data
  let hs := cs.takeWhile (fun c => c == '#')
  let rest := cs.dropWhile (fun c => c == '#')
  if hs.length = 0 ∨ 3 < hs.length then none
  else
    match rest with
    | ' ' :: _ =>
      let r1 := rest.dropWhile (fun c => c == ' ')
      let r2 :=
        match r1 with
        | 'v' :: t => t
        | _ => r1
      match versionChars r2 with
      | none => none
      | some (v, after) =>
        let r3 := after.dropWhile (fun c => c == ' ')
        match r3 with
        | [] => some (String.mk v, none)
        | '(' :: t =>
          let inner := t.takeWhile (fun c => !(c == ')'))
          match t.dropWhile (fun c => !(c == ')')) with
          | ')' :: t2 =>
            if t2.all Char.isWhitespace then
              some (String.mk v, if isDateYMD inner then some (String.mk inner) else none)
            else none
          | _ => none
        | _ => none
    | _ => none

/-- The literal word of the sentinel header. -/
def unreleasedWord : List Char := "Unreleased".data

/-- Tail of a generic sentinel header after the markup prefix and
spaces: the literal word, optionally bracketed (spec 4.1). -/
def genericUnrelTail (r1 : List Char) : Bool :=
  (unreleasedWord.isPrefixOf r1 && (r1.drop 10).all Char.isWhitespace)
  ||
  (match r1 with
   | '[' :: t =>
     unreleasedWord.isPrefixOf t &&
     (match t.drop 10 with
      | ']' :: t2 => t2.all Char.isWhitespace
      | _ => false)
   | _ => false)

/-- Modelled from the spec: generic sentinel-header recognition
(spec 4.1): a 1-3 depth markup prefix plus the literal word
"Unreleased", optionally bracketed. -/
def isGenericUnreleased (cs : List Char) : Bool :=
  let hs := cs.takeWhile (fun c => c == '#')
  let rest := cs.dropWhile (fun c => c == '#')
  if 1 ≤ hs.length ∧ hs.length ≤ 3 then
    match rest with
    | ' ' :: _ => genericUnrelTail (rest.dropWhile (fun c => c == ' '))
    | _ => false
  else false

/-- Modelled from the spec: a line is the Unreleased header when it
matches the configured literal (spec 6: configurable literal) or the
generic sentinel form. -/
def isUnreleasedLine (hdr line : String) : Bool :=
  trimS line == trimS hdr || isGenericUnreleased line.data

/-- Section kind (spec section 3): the Unreleased sentinel, or a
version with its optional date. -/
inductive SecKind where
  | unreleased : SecKind
  | version : String → Option String → SecKind
  deriving Repr, DecidableEq

/-- A section record (spec section 3): the verbatim header line, the
recognized kind, and the raw content block. -/
structure Section where
  header : String
  kind : SecKind
  rawContent : String
  deriving Repr, DecidableEq

/-- Modelled from the spec: classify a line as the Unreleased header,
a version header, or ordinary content (spec 4.1). -/
def classify (hdr line : String) : Option SecKind :=
  if isUnreleasedLine hdr line then some SecKind.unreleased
  else
    match parseVersionHeaderLine line with
    | some (v, d) => some (SecKind.version v d)
    | none => none

/-- A line recognized as some header. -/
def isHeaderLine (hdr line : String) : Bool := (classify hdr line).isSome

/-- A document (spec section 3): the verbatim preamble lines before the
first section header, and the ordered section list. -/
structure Document where
  preambleLines : List String
  sections : List Section
  deriving Repr, DecidableEq

theorem dropWhile_length_le {α : Type} (p : α → Bool) (l : List α) :
    (l.dropWhile p).length ≤ l.length := by
  induction l with
  | nil => simp
  | cons a t ih =>
    rw [List.dropWhile_cons]
    split
    · exact Nat.le_succ_of_le ih
    · exact Nat.le_refl _

/-- Build one section record from its header line, recognized kind, and
body lines (spec 4.2: raw content trimmed of surrounding blank lines,
interior byte-preserved). -/
def mkSection (h : String) (k : SecKind) (body : List String) : Section :=
  { header := h, kind := k, rawContent := unlines (trimBlankEdges body) }

/-- Worker of the document parser: accumulate body lines of the current
section until the next recognized header. -/
def parseSecsAux (hdr : String) (h : String) (k : SecKind) (acc : List String) :
    List String → List Section
  | [] => [mkSection h k acc]
  | l :: rest =>
    match classify hdr l with
    | none => parseSecsAux hdr h k (acc ++ [l]) rest
    | some k2 => mkSection h k acc :: parseSecsAux hdr l k2 [] rest

/-- Modelled from the spec: the document parser (spec 4.2): one section
per recognized header; raw content is everything up to the next header,
trimmed of surrounding blank lines. -/
def parseSecs (hdr : String) : List String → List Section
  | [] => []
  | l :: rest =>
    match classify hdr l with
    | none => parseSecs hdr rest
    | some k => parseSecsAux hdr l k [] rest

/-- Modelled from the spec: parse a document (spec 4.2): preamble is
everything before the first recognized header, verbatim. -/
def parseDoc (hdr : String) (c : String) : Document :=
  let ls := toLines c
  { preambleLines := ls.takeWhile (fun l => !(isHeaderLine hdr l))
    sections := parseSecs hdr (ls.dropWhile (fun l => !(isHeaderLine hdr l))) }

/-! ### Serializer (spec 4.6) -/

/-- The default Unreleased header literal (spec 6). -/
def defaultUnreleasedHeader : String := "## Unreleased"

/-- The line block a section contributes before normalization: a blank
separator, the header, a blank separator, the raw content lines. -/
def secChunk (s : Section) : List String :=
  [""] ++ toLines s.header ++ [""] ++ toLines s.rawContent

/-- All lines of a document before blank-line normalization. -/
def structuredLines (d : Document) : List String :=
  (d.preambleLines.flatMap toLines) ++ d.sections.flatMap secChunk

/-- Modelled from the spec: the serializer (spec 4.6): render the blocks
separated by single blank lines, normalize blank-line runs, and end the
file with exactly one trailing newline. -/
def render (d : Document) : String :=
  match squeezeTrim (structuredLines d) with
  | [] => ""
  | ls => unlines ls ++ "\n"

/-! ### Query layer (spec 4.3) -/

/-- Is this section the Unreleased sentinel? -/
def isUnrelSec (s : Section) : Bool :=
  match s.kind with
  | SecKind.unreleased => true
  | _ => false

/-- The stored version of a version section. -/
def sectionVersion (s : Section) : Option String :=
  match s.kind with
  | SecKind.version v _ => some v
  | _ => none

/-- Modelled from the spec: strip one optional leading letter v from a
version query (spec 4.3). -/
def stripV (q : String) : String :=
  match q.data with
  | 'v' :: t => String.mk t
  | _ => q

/-- The document of a file state: a missing file parses as the empty
document (spec 4.2, 7). -/
def docOf (hdr : String) (file : Option String) : Document :=
  match file with
  | none => { preambleLines := [], sections := [] }
  | some c => parseDoc hdr c

/-- Modelled from the spec: parse the changelog file into its section
list; a missing file yields the empty sequence (spec 4.2, 7). -/
def parseChangelog (hdr : String) (file : Option String) : List Section :=
  (docOf hdr file).sections

/-- Modelled from the spec: stored version strings, excluding
Unreleased, in document order; empty on a missing or empty file
(spec 4.3). -/
def getVersions (file : Option String) : List String :=
  (parseChangelog defaultUnreleasedHeader file).filterMap sectionVersion

/-- Modelled from the spec: `hasVersion` (spec 4.3): strip one optional
leading v from the query and exact-string-compare against the stored
versions. -/
def hasVersion (file : Option String) (q : String) : Bool :=
  (getVersions file).contains (stripV q)

/-- Modelled from the spec: `getUnreleasedContent` (spec 4.3): the
Unreleased raw content, or absent if the file is missing, the section is
missing, or the content is empty or whitespace-only. -/
def getUnreleasedContent (file : Option String) (hdr : String) : Option String :=
  match file with
  | none => none
  | some c =>
    match (parseDoc hdr c).sections.find? isUnrelSec with
    | none => none
    | some s => if trimS s.rawContent == "" then none else some s.rawContent

/-- A markdown list item line: optional indentation, a dash, a space. -/
def isListItemLine (l : String) : Bool :=
  match l.data.dropWhile Char.isWhitespace with
  | '-' :: ' ' :: _ => true
  | _ => false

/-- Lower-cased characters of a string. -/
def lowerData (s : String) : List Char := s.data.map Char.toLower

/-- Literal contiguous-substring containment on character lists. -/
def containsSub (needle : List Char) : List Char → Bool
  | [] => needle.isEmpty
  | c :: t => needle.isPrefixOf (c :: t) || containsSub needle t

/-- Modelled from the spec: `isEntryInChangelog` (spec 4.3):
case-insensitive containment of the literal message text against every
list item across the whole document; pattern-special characters are
treated literally. -/
def isEntryInChangelog (file : Option String) (msg : String) : Bool :=
  match file with
  | none => false
  | some c =>
    (toLines c).any (fun l => isListItemLine l && containsSub (lowerData msg) (lowerData l))

/-! ### Validation layer (spec 4.4) -/

/-- The validation outcome record (spec section 3). -/
structure ValidationResult where
  valid : Bool
  hasVersionEntry : Bool
  hasUnreleased : Bool
  versionContent : Option String
  errors : List String
  warnings : List String
  deriving Repr, DecidableEq

/-- Modelled from the spec: `validateChangelog` (spec 4.4), policy in
order: missing file, missing version entry, empty version entry,
a very-short warning, and a pending-Unreleased warning. -/
def validateChangelog (file : Option String) (version : String) : ValidationResult :=
  match file with
  | none =>
    { valid := false, hasVersionEntry := false, hasUnreleased := false
      versionContent := none
      errors := ["Changelog file not found"], warnings := [] }
  | some c =>
    let d := parseDoc defaultUnreleasedHeader c
    let bare := stripV version
    let hasU :=
      match d.sections.find? isUnrelSec with
      | some u => !(trimS u.rawContent == "")
      | none => false
    let uWarn := if hasU then ["Changelog has pending Unreleased changes"] else []
    match d.sections.find? (fun s => sectionVersion s == some bare) with
    | none =>
      { valid := false, hasVersionEntry := false, hasUnreleased := hasU
        versionContent := none
        errors := ["Changelog does not contain an entry for version " ++ bare]
        warnings := uWarn }
    | some s =>
      if trimS s.rawContent == "" then
        { valid := false, hasVersionEntry := false, hasUnreleased := hasU
          versionContent := none
          errors := ["Changelog entry for version " ++ bare ++ " is empty"]
          warnings := uWarn }
      else
        { valid := true, hasVersionEntry := true, hasUnreleased := hasU
          versionContent := some s.rawContent
          errors := []
          warnings :=
            (if s.rawContent.length < 10 then
              ["Changelog entry for version " ++ bare ++ " seems very short"]
            else []) ++ uWarn }

/-! ### Mutation layer (spec 4.5) -/

/-- First Unreleased section, if any (spec 3: the first is
authoritative). -/
def findFirstUnrel (ss : List Section) : Option Section := ss.find? isUnrelSec

/-- Remove the first Unreleased section. -/
def removeFirstUnrel : List Section → List Section
  | [] => []
  | s :: rest => if isUnrelSec s then rest else s :: removeFirstUnrel rest

/-- Rewrite the raw content of the first Unreleased section. -/
def updateFirstUnrel (f : String → String) : List Section → List Section
  | [] => []
  | s :: rest =>
    if isUnrelSec s then { s with rawContent := f s.rawContent } :: rest
    else s :: updateFirstUnrel f rest

/-- Modelled from the spec: append formatted entries to the end of the
existing Unreleased content (spec 4.5). -/
def appendEntriesText (old : String) (entries : List CommitEntry) : String :=
  let block := unlines (entries.map formatCommitEntry)
  if trimS old == "" then block else old ++ "\n" ++ block

/-- Modelled from the spec: `addToUnreleased` (spec 4.5): no-op on an
empty entry list; synthesize a title plus an empty Unreleased section
when the file is absent; insert an empty Unreleased section first when
it is missing; append the formatted entries in input order. -/
def addToUnreleased (file : Option String) (entries : List CommitEntry) (hdr : String) :
    Option String :=
  if entries.isEmpty then file
  else
    let d : Document :=
      match file with
      | none =>
        { preambleLines := ["# Changelog"]
          sections := [{ header := hdr, kind := SecKind.unreleased, rawContent := "" }] }
      | some c =>
        let d0 := parseDoc hdr c
        if d0.sections.any isUnrelSec then d0
        else
          { d0 with sections :=
              { header := hdr, kind := SecKind.unreleased, rawContent := "" } :: d0.sections }
    some (render
      { d with sections := updateFirstUnrel (fun r => appendEntriesText r entries) d.sections })

/-- Modelled from the spec: `promoteUnreleasedToVersion` (spec 4.5, 7):
requires a present, non-empty Unreleased section, else a hard failure;
normalize the version by prefixing v if absent; the new version section
takes the prior Unreleased content; order is Unreleased (emptied), the
new version, then the pre-existing sections. -/
def promoteUnreleasedToVersion (file : Option String) (version date : String) (hdr : String) :
    Except String String :=
  let d : Document := docOf hdr file
  match findFirstUnrel d.sections with
  | none => Except.error ("Unreleased section not found in changelog")
  | some u =>
    if trimS u.rawContent == "" then
      Except.error ("Unreleased section is empty - nothing to promote")
    else
      let bare := stripV version
      Except.ok (render
        { preambleLines := d.preambleLines
          sections :=
            { header := u.header, kind := SecKind.unreleased, rawContent := "" } ::
            { header := "## v" ++ bare ++ " (" ++ date ++ ")"
              kind := SecKind.version bare (some date)
              rawContent := u.rawContent } ::
            removeFirstUnrel d.sections })

/-- Modelled from the spec: `addVersionSection` (spec 4.5): skip
entirely on an empty entry list; insert the built section immediately
after Unreleased if present, else at the top, before every pre-existing
version section. -/
def addVersionSection (file : Option String) (version date : String)
    (entries : List CommitEntry) (hdr : String) : Option String :=
  if entries.isEmpty then file
  else
    let d : Document :=
      match file with
      | none => { preambleLines := ["# Changelog"], sections := [] }
      | some c => parseDoc hdr c
    let bare := stripV version
    let newSec : Section :=
      { header := "## v" ++ bare ++ " (" ++ date ++ ")"
        kind := SecKind.version bare (some date)
        rawContent := unlines (entries.map formatCommitEntry) }
    let sections1 :=
      match d.sections with
      | [] => [newSec]
      | s :: rest => if isUnrelSec s then s :: newSec :: rest else newSec :: s :: rest
    some (render { d with sections := sections1 })

/-! ### Mutation sequences and the formatter invariant (spec 4.6, 8) -/

/-- One mutation-layer call. -/
inductive Mutation where
  | add : List CommitEntry → String → Mutation
  | promote : String → String → String → Mutation
  | addVer : String → String → List CommitEntry → String → Mutation

/-- Apply one mutation to the file state; the second component is the
content written to disk, when a write happens (errors and no-ops leave
the original file untouched, spec 7). -/
def applyMutation (m : Mutation) (file : Option String) : Option String × Option String :=
  match m with
  | Mutation.add entries hdr =>
    if entries.isEmpty then (file, none)
    else
      let c := addToUnreleased file entries hdr
      (c, c)
  | Mutation.promote v dt hdr =>
    match promoteUnreleasedToVersion file v dt hdr with
    | Except.error _ => (file, none)
    | Except.ok c => (some c, some c)
  | Mutation.addVer v dt entries hdr =>
    if entries.isEmpty then (file, none)
    else
      let c := addVersionSection file v dt entries hdr
      (c, c)

/-- Every content written to disk during a sequence of mutations. -/
def writtenDuring : List Mutation → Option String → List String
  | [], _ => []
  | m :: ms, file =>
    let r := applyMutation m file
    (match r.2 with | some c => [c] | none => []) ++ writtenDuring ms r.1

/-- No two consecutive blank lines. -/
def noAdjBlank : List String → Bool
  | [] => true
  | [_] => true
  | a :: b :: rest => !(isBlankS a && isBlankS b) && noAdjBlank (b :: rest)

/-- The output invariant of the serializer (spec 4.6): nonempty text,
no two consecutive blank lines, and exactly one trailing newline. -/
def okSpacing (s : String) : Bool :=
  !(s == "") && noAdjBlank (toLines s) && ((toLines s).getLast? == some "")

/-! ### Well-formedness predicates and normal forms -/

/-- A usable Unreleased header literal: nonblank (its trimmed form
starts with the markup character), single-line, and not itself a
version header. -/
def hdrOK (hdr : String) : Prop :=
  (trimS hdr).data.head? = some '#' ∧
  parseVersionHeaderLine (trimS hdr) = none ∧
  '\n' ∉ hdr.data ∧ '\r' ∉ hdr.data

/-- A section whose header re-classifies to its stored kind and whose
content lines are ordinary content — the shape every parsed section has. -/
def sectionOK (hdr : String) (s : Section) : Prop :=
  classify hdr s.header = some s.kind ∧
  isBlankS s.header = false ∧
  '\n' ∉ s.header.data ∧ '\r' ∉ s.header.data ∧
  '\r' ∉ s.rawContent.data ∧
  ∀ l ∈ toLines s.rawContent, classify hdr l = none

/-- A document whose preamble lines are ordinary single lines and whose
sections are all well-formed. -/
def docOK (hdr : String) (d : Document) : Prop :=
  (∀ l ∈ d.preambleLines, classify hdr l = none ∧ '\n' ∉ l.data ∧ '\r' ∉ l.data) ∧
  ∀ s ∈ d.sections, sectionOK hdr s

/-- Raw content after the serializer's blank-line normalization. -/
def normRaw (r : String) : String := unlines (squeezeTrim (toLines r))

/-- A section after one serialize-and-reparse cycle: same header and
kind, content normalized. -/
def normSec (s : Section) : Section := { s with rawContent := normRaw s.rawContent }

/-- The body of the rendered section area, regrouped so that every
block starts with a (nonblank) header line. -/
def chunksFrom : List Section → List String
  | [] => []
  | [s] => s.header :: "" :: toLines s.rawContent
  | s :: rest => (s.header :: "" :: (toLines s.rawContent ++ [""])) ++ chunksFrom rest

/-- A version string in exactly the shape the header recognizer accepts
(dot-separated numeric segments, optional hyphenated pre-release tag). -/
def isBareVersion (v : String) : Bool :=
  match versionChars v.data with
  | some p => p.1 == v.data && p.2.isEmpty
  | none => false

/-- A commit entry whose fields are single-line, so that its formatted
line is one ordinary content line. -/
def entryClean (e : CommitEntry) : Prop :=
  ('\n' ∉ e.message.data ∧ '\r' ∉ e.message.data) ∧
  ('\n' ∉ e.author.data ∧ '\r' ∉ e.author.data) ∧
  (∀ sha, e.commitSha = some sha → '\n' ∉ sha.data ∧ '\r' ∉ sha.data) ∧
  (∀ url, e.repoUrl = some url → '\n' ∉ url.data ∧ '\r' ∉ url.data)

/-- Claim-shaped restatement of the commit entry formatter, written
from the priority cases (a)-(d) of spec 4.7. -/
def formatCommitEntrySpec (e : CommitEntry) : String :=
  let core := "- " ++ e.message ++ " by " ++ ("@" ++ stripLeadingAt e.author)
  match e.prNumber, e.repoUrl, e.commitSha with
  | some n, some url, _ =>
    core ++ " " ++ ("([#" ++ toString n ++ "](" ++ url ++ "/pull/" ++ toString n ++ "))")
  | some n, none, _ => core ++ " " ++ ("(#" ++ toString n ++ ")")
  | none, some url, some sha =>
    core ++ " " ++ ("([" ++ shortSha sha ++ "](" ++ url ++ "/commit/" ++ sha ++ "))")
  | none, some _, none => core
  | none, none, _ => core

/-- The claim's literal reading of `toCommitEntry`: the author would be
the GitHub handle whenever the field is present. -/
def toCommitEntrySpecClaim (c : CommitInfo) (r : String) : CommitEntry :=
  { message := cleanCommitMessage c.message
    author := c.authorHandle.getD c.author
    prNumber := c.prNumber
    commitSha := none
    repoUrl := some r }

/-! ### Concrete inputs used by witnesses and counterexamples -/

def exNoUnrel : String := "# Changelog\n\n## v1.0.0\n\n- Old feature\n"

def exEmptyUnrel : String := "# Changelog\n\n## Unreleased\n\n## v1.0.0\n\n- Old feature\n"

def exSimilarVersions : String := "## v1.0.0\n\n- Feature\n\n## v1.0.10\n\n- Another feature\n"

def exOnlyV100 : String := "## 1.0.0\n\n- F\n"

def exSpecials : String :=
  "## Unreleased\n\n- Fix bug with array[0] access\n- Handle (parentheses) properly\n- Match a.b.c pattern\n"

def exUnrelFeature : String := "## Unreleased\n\n- Feature\n"

def exUnrelOld : String := "## Unreleased\n\n- Old\n"

def exBasic : String := "# Changelog\n\n## Unreleased\n\n- Existing entry\n\n## v1.0.0\n\n- Released feature\n"

def exEntryA : CommitEntry :=
  { message := "New feature", author := "davesnx", prNumber := some 42
    commitSha := none, repoUrl := none }

def exEntryEvil : CommitEntry :=
  { message := "Evil\n## v9.9.9\nmore", author := "u", prNumber := none
    commitSha := none, repoUrl := none }

def exC10Info : CommitInfo :=
  { sha := "s", message := "m", author := "git-name", authorHandle := some ""
    prNumber := none }

def exC10InfoB : CommitInfo :=
  { sha := "s", message := "Add feature (#12)", author := "git-name"
    authorHandle := some "davesnx", prNumber := some 12 }

/-- The rendered line blocks of a section list after collapsing blank
runs: every block starts with its (nonblank) header line. -/
def renderChunks : List Section → List String
  | [] => []
  | [s] => s.header :: collapse ("" :: toLines s.rawContent)
  | s :: rest =>
    (s.header :: collapse ("" :: (toLines s.rawContent ++ [""]))) ++ renderChunks rest

/-! ## Theorems -/

/-- C4. For every CommitEntry, `formatCommitEntry` returns exactly one
line `- <message> by @<author><suffix>`: one leading at-sign stripped
and exactly one re-prefixed, and the link suffix chosen by the priority
(a) PR number and repo url, (b) PR number alone, (c) commit sha and repo
url, (d) nothing — message and author inserted unescaped. -/
theorem c4_formatCommitEntry_priority (e : CommitEntry) :
    formatCommitEntry e = formatCommitEntrySpec e := by
  obtain ⟨m, a, p, s, u⟩ := e
  cases p <;> cases s <;> cases u <;> rfl

/-- C7. `validateChangelog` is a total function returning a populated
`ValidationResult`, and `valid` holds exactly when the error list is
empty; warnings are appended without affecting `valid`. -/
theorem c7_validate_valid_iff_no_errors (file : Option String) (version : String) :
    (validateChangelog file version).valid = (validateChangelog file version).errors.isEmpty := by
  cases file with
  | none => rfl
  | some c =>
    unfold validateChangelog
    dsimp only
    split
    · rfl
    · split
      · rfl
      · rfl

/-- C8. Query-layer operations degrade on a missing file instead of
failing: `hasVersion` and `isEntryInChangelog` return false,
`getVersions` returns the empty list, `getUnreleasedContent` returns
absent; and `getUnreleasedContent` is also absent when the Unreleased
section is missing or its content is whitespace-only.  (All query
operations are total functions, so none can raise.) -/
theorem c8_queries_degrade :
    (∀ q, hasVersion none q = false) ∧
    (∀ msg, isEntryInChangelog none msg = false) ∧
    getVersions none = [] ∧
    (∀ hdr, getUnreleasedContent none hdr = none) ∧
    (∀ hdr c, (parseDoc hdr c).sections.find? isUnrelSec = none →
      getUnreleasedContent (some c) hdr = none) ∧
    (∀ hdr c s, (parseDoc hdr c).sections.find? isUnrelSec = some s →
      trimS s.rawContent = "" → getUnreleasedContent (some c) hdr = none) := by
  refine ⟨fun q => rfl, fun msg => rfl, rfl, fun hdr => rfl, ?_, ?_⟩
  · intro hdr c h
    unfold getUnreleasedContent
    dsimp only
    rw [h]
  · intro hdr c s h h2
    unfold getUnreleasedContent
    dsimp only
    rw [h]
    simp [h2]

/-- Witness for C8: the degradation cases at concrete inputs. -/
theorem c8_queries_degrade_witness :
    hasVersion none "1.0.0" = false ∧
    getUnreleasedContent (some exNoUnrel) defaultUnreleasedHeader = none ∧
    getUnreleasedContent (some exEmptyUnrel) defaultUnreleasedHeader = none :=
  ⟨c8_queries_degrade.1 "1.0.0",
   c8_queries_degrade.2.2.2.2.1 defaultUnreleasedHeader exNoUnrel (by decide),
   c8_queries_degrade.2.2.2.2.2 defaultUnreleasedHeader exEmptyUnrel
     { header := "## Unreleased", kind := SecKind.unreleased, rawContent := "" }
     (by decide) (by decide)⟩

/-- C9. `isEntryInChangelog` is literal case-insensitive containment
against the list items of the whole document: it is true exactly when
some list-item line contains the lower-cased message text as a
contiguous substring, so regex-special characters match verbatim. -/
theorem c9_isEntry_literal_containment (c : String) (msg : String) :
    isEntryInChangelog (some c) msg = true ↔
      ∃ l ∈ toLines c, isListItemLine l = true ∧
        containsSub (lowerData msg) (lowerData l) = true := by
  unfold isEntryInChangelog
  rw [List.any_eq_true]
  constructor
  · rintro ⟨l, hl, hp⟩
    exact ⟨l, hl, by simpa using hp⟩
  · rintro ⟨l, hl, h1, h2⟩
    exact ⟨l, hl, by simp [h1, h2]⟩

/-- Witness for C9: bracketed, parenthesized and dotted queries match
their exact substrings in the sample document, and a non-occurring
bracketed query does not. -/
theorem c9_isEntry_literal_containment_witness :
    (∃ l ∈ toLines exSpecials, isListItemLine l = true ∧
      containsSub (lowerData "array[0]") (lowerData l) = true) ∧
    isEntryInChangelog (some exSpecials) "(parentheses)" = true ∧
    isEntryInChangelog (some exSpecials) "a.b.c" = true ∧
    isEntryInChangelog (some exSpecials) "array[1]" = false :=
  ⟨(c9_isEntry_literal_containment exSpecials "array[0]").mp (by decide),
   by decide, by decide, by decide⟩

theorem stripV_vcons (v : String) : stripV ("v" ++ v) = v := by
  have h : ("v" ++ v).data = 'v' :: v.data := by
    rw [String.data_append]
    rfl
  unfold stripV
  rw [h]
  rfl

theorem stripV_of_head_ne (v : String) (h : v.data.head? ≠ some 'v') : stripV v = v := by
  unfold stripV
  cases hv : v.data with
  | nil => rfl
  | cons a t =>
    rw [hv] at h
    have ha : a ≠ 'v' := by simpa using h
    split
    · next t2 heq =>
      injection heq with h1 h2
      exact absurd h1 ha
    · rfl

/-- C6 counterexample: the claimed equation
`hasVersion(path, v) = hasVersion(path, "v" + v)` fails for a query
that itself starts with the letter v, because only one leading v is
stripped. -/
theorem c6_counterexample :
    ¬ (hasVersion (some exOnlyV100) ("v" ++ "v1.0.0") =
        hasVersion (some exOnlyV100) ("v1.0.0")) := by decide

/-- C6 (amended). `hasVersion` strips one optional leading v from the
query and compares for exact string equality against the stored version
strings; "1.0.1" does not match "1.0.0" or "1.0.10"; and
`hasVersion(path, v) = hasVersion(path, "v" + v)` for every query `v`
that does not itself start with the letter v. -/
theorem c6_hasVersion_amended :
    (∀ c q, hasVersion (some c) q = true ↔
      ∃ s ∈ (parseDoc defaultUnreleasedHeader c).sections,
        sectionVersion s = some (stripV q)) ∧
    (hasVersion (some exSimilarVersions) ("1.0.0") = true ∧
     hasVersion (some exSimilarVersions) ("1.0.10") = true ∧
     hasVersion (some exSimilarVersions) ("1.0.1") = false) ∧
    (∀ file v, v.data.head? ≠ some 'v' →
      hasVersion file ("v" ++ v) = hasVersion file v) := by
  refine ⟨?_, by decide, ?_⟩
  · intro c q
    unfold hasVersion getVersions parseChangelog docOf
    simp only [List.elem_iff, List.mem_filterMap]
  · intro file v h
    unfold hasVersion
    rw [stripV_vcons, stripV_of_head_ne v h]

/-- Witness for C6: the v-prefix equation applied at a bare query. -/
theorem c6_hasVersion_amended_witness :
    hasVersion (some exOnlyV100) ("v" ++ "1.0.0") =
      hasVersion (some exOnlyV100) ("1.0.0") ∧
    hasVersion (some exSimilarVersions) ("1.0.1") = false :=
  ⟨c6_hasVersion_amended.2.2 (some exOnlyV100) ("1.0.0") (by decide),
   c6_hasVersion_amended.2.1.2.2⟩

/-- C3. `promoteUnreleasedToVersion` fails on violated preconditions —
with a message matching "not found" (case-insensitively) when no
Unreleased section exists (including a missing file), and a message
matching "empty" when the Unreleased content is empty or
whitespace-only — and in every such case the file state is left
unchanged and nothing is written. -/
theorem c3_promote_error_handling (file : Option String) (version date hdr : String) :
    (findFirstUnrel (parseChangelog hdr file) = none →
      ∃ msg, promoteUnreleasedToVersion file version date hdr = Except.error msg ∧
        containsSub (lowerData ("not found")) (lowerData msg) = true ∧
        applyMutation (Mutation.promote version date hdr) file = (file, none)) ∧
    (∀ u, findFirstUnrel (parseChangelog hdr file) = some u →
      trimS u.rawContent = "" →
      ∃ msg, promoteUnreleasedToVersion file version date hdr = Except.error msg ∧
        containsSub (lowerData ("empty")) (lowerData msg) = true ∧
        applyMutation (Mutation.promote version date hdr) file = (file, none)) := by
  constructor
  · intro h
    unfold parseChangelog at h
    have hpe : promoteUnreleasedToVersion file version date hdr =
        Except.error ("Unreleased section not found in changelog") := by
      unfold promoteUnreleasedToVersion
      dsimp only
      rw [h]
    refine ⟨_, hpe, by decide, ?_⟩
    unfold applyMutation
    dsimp only
    rw [hpe]
  · intro u h h2
    unfold parseChangelog at h
    have hpe : promoteUnreleasedToVersion file version date hdr =
        Except.error ("Unreleased section is empty - nothing to promote") := by
      unfold promoteUnreleasedToVersion
      dsimp only
      rw [h]
      simp [h2]
    refine ⟨_, hpe, by decide, ?_⟩
    unfold applyMutation
    dsimp only
    rw [hpe]

/-- Witness for C3: both failure modes at concrete files. -/
theorem c3_promote_error_handling_witness :
    (∃ msg, promoteUnreleasedToVersion (some exNoUnrel) "v1.1.0" "2025-01-15"
        defaultUnreleasedHeader = Except.error msg ∧
      containsSub (lowerData ("not found")) (lowerData msg) = true ∧
      applyMutation (Mutation.promote "v1.1.0" "2025-01-15" defaultUnreleasedHeader)
        (some exNoUnrel) = (some exNoUnrel, none)) ∧
    (∃ msg, promoteUnreleasedToVersion (some exEmptyUnrel) "v1.1.0" "2025-01-15"
        defaultUnreleasedHeader = Except.error msg ∧
      containsSub (lowerData ("empty")) (lowerData msg) = true ∧
      applyMutation (Mutation.promote "v1.1.0" "2025-01-15" defaultUnreleasedHeader)
        (some exEmptyUnrel) = (some exEmptyUnrel, none)) :=
  ⟨(c3_promote_error_handling (some exNoUnrel) "v1.1.0" "2025-01-15"
      defaultUnreleasedHeader).1 (by decide),
   (c3_promote_error_handling (some exEmptyUnrel) "v1.1.0" "2025-01-15"
      defaultUnreleasedHeader).2
     { header := "## Unreleased", kind := SecKind.unreleased, rawContent := "" }
     (by decide) (by decide)⟩

/-- C10 counterexample: `toCommitEntry` does not use a present-but-empty
GitHub handle; the claim as stated (author is the handle whenever
present) fails at a commit whose handle is the empty string. -/
theorem c10_counterexample :
    toCommitEntry exC10Info "https://github.com/x/y" ≠
      toCommitEntrySpecClaim exC10Info "https://github.com/x/y" := by decide

/-- C10 (amended). `toCommitEntry` keeps the PR number, always sets the
repository url and no commit sha; the author is the GitHub handle when
it is present and non-empty, and otherwise the git author name; the
message is the commit message with at most one trailing
whitespace-plus-PR-reference suffix removed and then trimmed. -/
theorem c10_toCommitEntry_amended (c : CommitInfo) (r : String) :
    (toCommitEntry c r).prNumber = c.prNumber ∧
    (toCommitEntry c r).repoUrl = some r ∧
    (toCommitEntry c r).commitSha = none ∧
    ((c.authorHandle = none ∨ c.authorHandle = some "") →
      (toCommitEntry c r).author = c.author) ∧
    (∀ h, c.authorHandle = some h → h ≠ "" → (toCommitEntry c r).author = h) ∧
    (∃ kept : String, (toCommitEntry c r).message = jsTrim kept ∧
      (kept = c.message ∨
        ∃ ws ds : List Char, (∀ x ∈ ws, jsSpace x = true) ∧
          ds ≠ [] ∧ (∀ x ∈ ds, x.isDigit = true) ∧
          c.message = kept ++ String.mk (ws ++ '(' :: '#' :: (ds ++ [')'])))) := by
  refine ⟨rfl, rfl, rfl, ?_, ?_, ?_⟩
  · rintro (h | h) <;> simp [toCommitEntry, h]
  · intro h hh hne
    simp [toCommitEntry, hh, hne]
  · show ∃ kept, cleanCommitMessage c.message = jsTrim kept ∧ _
    unfold cleanCommitMessage
    cases hm : stripPRSuffixRev c.message.data.reverse with
    | none => exact ⟨c.message, rfl, Or.inl rfl⟩
    | some revKept =>
      refine ⟨String.mk revKept.reverse, rfl, Or.inr ?_⟩
      unfold stripPRSuffixRev at hm
      split at hm
      case h_2 => exact absurd hm (by simp)
      case h_1 r1 heq =>
        dsimp only at hm
        split at hm
        case isTrue => exact absurd hm (by simp)
        case isFalse hds =>
          split at hm
          case h_2 => exact absurd hm (by simp)
          case h_1 r3 heq2 =>
            have hrev : revKept = r3.dropWhile jsSpace := by
              injection hm with h1
              exact h1.symm
            refine ⟨(r3.takeWhile jsSpace).reverse, (r1.takeWhile Char.isDigit).reverse,
              ?_, ?_, ?_, ?_⟩
            · intro x hx
              rw [List.mem_reverse] at hx
              exact List.mem_takeWhile_imp hx
            · simp only [ne_eq, List.reverse_eq_nil_iff]
              intro hnil
              exact hds (by simp [hnil])
            · intro x hx
              rw [List.mem_reverse] at hx
              exact List.mem_takeWhile_imp hx
            · apply String.ext
              have hmsg : c.message.data = r1.reverse ++ [')'] := by
                have h0 := congrArg List.reverse heq
                simpa using h0
              have hr3 : r3 = r3.takeWhile jsSpace ++ revKept := by
                conv_lhs => rw [← List.takeWhile_append_dropWhile jsSpace r3]
                rw [hrev]
              rw [hmsg]
              conv_lhs => rw [← List.takeWhile_append_dropWhile Char.isDigit r1, heq2]
              conv_lhs => rw [hr3]
              simp [String.data_append, List.reverse_append, List.append_assoc]

/-- Witness for C10: a non-empty handle is used; an empty one falls
back to the git author name. -/
theorem c10_toCommitEntry_amended_witness :
    (toCommitEntry exC10InfoB "u").author = "davesnx" ∧
    (toCommitEntry exC10Info "u").author = exC10Info.author :=
  ⟨(c10_toCommitEntry_amended exC10InfoB "u").2.2.2.2.1 "davesnx" rfl (by decide),
   (c10_toCommitEntry_amended exC10Info "u").2.2.2.1 (Or.inr rfl)⟩

/-! ### Lemmas about blank-line normalization -/

theorem isBlankS_empty : isBlankS "" = true := rfl

theorem isBlankS_normBlank (l : String) : isBlankS (normBlank l) = isBlankS l := by
  unfold normBlank
  split
  · next h => rw [h]; rfl
  · rfl

theorem collapse_head? (ls : List String) :
    (collapse ls).head? = ls.head?.map normBlank := by
  induction ls with
  | nil => rfl
  | cons a t ih =>
    cases t with
    | nil => rfl
    | cons b r =>
      unfold collapse
      split
      · next hb =>
        have ha : isBlankS a = true := ((Bool.and_eq_true _ _).mp hb).1
        have hbb : isBlankS b = true := ((Bool.and_eq_true _ _).mp hb).2
        rw [ih]
        simp [normBlank, ha, hbb]
      · rfl

theorem chain'_collapse (ls : List String) :
    List.Chain' (fun a b => isBlankS a = false ∨ isBlankS b = false) (collapse ls) := by
  induction ls with
  | nil => exact List.chain'_nil
  | cons a t ih =>
    cases t with
    | nil => exact List.chain'_singleton _
    | cons b r =>
      unfold collapse
      split
      · exact ih
      · next hb =>
        rw [List.chain'_cons']
        refine ⟨?_, ih⟩
        intro y hy
        rw [collapse_head?] at hy
        simp only [List.head?_cons] at hy
        simp at hy
        subst hy
        rw [isBlankS_normBlank, isBlankS_normBlank]
        cases haa : isBlankS a with
        | false => exact Or.inl rfl
        | true =>
          cases hbb : isBlankS b with
          | false => exact Or.inr rfl
          | true => exact absurd (by rw [haa, hbb]; rfl) hb

theorem dropTrailBlanks_pre (ls : List String) : dropTrailBlanks ls <+: ls := by
  induction ls with
  | nil => exact List.prefix_refl _
  | cons a t ih =>
    unfold dropTrailBlanks
    cases h : dropTrailBlanks t with
    | nil =>
      by_cases ha : isBlankS a = true
      · rw [if_pos ha]
        exact List.nil_prefix
      · rw [if_neg ha]
        exact ⟨t, rfl⟩
    | cons x r =>
      rw [h] at ih
      obtain ⟨u, hu⟩ := ih
      exact ⟨u, by rw [List.cons_append, hu]⟩

theorem getLast?_cons_of_ne {α : Type} (a : α) (r : List α) (h : r ≠ []) :
    (a :: r).getLast? = r.getLast? := by
  cases r with
  | nil => exact absurd rfl h
  | cons x t => rfl

theorem getLast?_append_right {α : Type} (t s : List α) (h : s ≠ []) :
    (t ++ s).getLast? = s.getLast? := by
  induction t with
  | nil => rfl
  | cons a u ih =>
    rw [List.cons_append, getLast?_cons_of_ne, ih]
    intro hc
    rcases List.append_eq_nil.mp hc with ⟨_, h2⟩
    exact h h2

theorem dropTrailBlanks_getLast (ls : List String) (x : String)
    (h : (dropTrailBlanks ls).getLast? = some x) : isBlankS x = false := by
  induction ls with
  | nil => exact absurd h (by simp [dropTrailBlanks])
  | cons a t ih =>
    unfold dropTrailBlanks at h
    revert h
    cases hd : dropTrailBlanks t with
    | nil =>
      by_cases ha : isBlankS a = true
      · rw [if_pos ha]
        intro h
        exact absurd h (by simp)
      · rw [if_neg ha]
        intro h
        simp only [List.getLast?_singleton, Option.some.injEq] at h
        subst h
        exact Bool.not_eq_true _ ▸ (by simpa using ha)
    | cons y r =>
      intro h
      rw [getLast?_cons_of_ne _ _ (by simp), ← hd] at h
      exact ih h

theorem dropTrailBlanks_ne_nil (ls : List String) (l : String)
    (hl : l ∈ ls) (hb : isBlankS l = false) : dropTrailBlanks ls ≠ [] := by
  induction ls with
  | nil => exact absurd hl (by simp)
  | cons a t ih =>
    unfold dropTrailBlanks
    cases hd : dropTrailBlanks t with
    | nil =>
      rcases List.mem_cons.mp hl with h | h
      · subst h
        rw [if_neg (by rw [hb]; exact Bool.false_ne_true)]
        exact List.cons_ne_nil _ _
      · exact absurd hd (ih h)
    | cons y r => exact List.cons_ne_nil _ _

theorem mem_dropTrailBlanks (ls : List String) (l : String)
    (hl : l ∈ ls) (hb : isBlankS l = false) : l ∈ dropTrailBlanks ls := by
  induction ls with
  | nil => exact absurd hl (by simp)
  | cons a t ih =>
    unfold dropTrailBlanks
    cases hd : dropTrailBlanks t with
    | nil =>
      rcases List.mem_cons.mp hl with h | h
      · subst h
        rw [if_neg (by rw [hb]; exact Bool.false_ne_true)]
        exact List.mem_singleton.mpr rfl
      · exact absurd hd (dropTrailBlanks_ne_nil t l h hb)
    | cons y r =>
      rcases List.mem_cons.mp hl with h | h
      · subst h
        exact List.mem_cons_self _ _
      · exact List.mem_cons_of_mem _ (hd ▸ ih h)

theorem mem_collapse_of_nonblank (ls : List String) (l : String)
    (hl : l ∈ ls) (hb : isBlankS l = false) : l ∈ collapse ls := by
  induction ls with
  | nil => exact absurd hl (by simp)
  | cons a t ih =>
    cases t with
    | nil =>
      rcases List.mem_cons.mp hl with h | h
      · subst h
        simp [collapse, normBlank, hb]
      · exact absurd h (by simp)
    | cons b r =>
      unfold collapse
      split
      · next hab =>
        rcases List.mem_cons.mp hl with h | h
        · subst h
          exact absurd ((Bool.and_eq_true _ _).mp hab).1 (by rw [hb]; exact Bool.false_ne_true)
        · exact ih h
      · rcases List.mem_cons.mp hl with h | h
        · subst h
          have hnb : normBlank l = l := by
            unfold normBlank
            rw [if_neg (by rw [hb]; exact Bool.false_ne_true)]
          rw [hnb]
          exact List.mem_cons_self _ _
        · exact List.mem_cons_of_mem _ (ih h)

theorem mem_dropWhileBlank_of_nonblank (ls : List String) (l : String)
    (hl : l ∈ ls) (hb : isBlankS l = false) : l ∈ ls.dropWhile isBlankS := by
  induction ls with
  | nil => exact absurd hl (by simp)
  | cons a t ih =>
    rw [List.dropWhile_cons]
    split
    · next ha =>
      rcases List.mem_cons.mp hl with h | h
      · subst h
        exact absurd ha (by rw [hb]; exact Bool.false_ne_true)
      · exact ih h
    · exact hl

theorem mem_squeezeTrim_of_nonblank (ls : List String) (l : String)
    (hl : l ∈ ls) (hb : isBlankS l = false) : l ∈ squeezeTrim ls := by
  unfold squeezeTrim
  exact mem_dropWhileBlank_of_nonblank _ _
    (mem_dropTrailBlanks _ _ (mem_collapse_of_nonblank _ _ hl hb) hb) hb

theorem squeezeTrim_ne_nil_of_mem (ls : List String) (l : String)
    (hl : l ∈ ls) (hb : isBlankS l = false) : squeezeTrim ls ≠ [] := by
  intro h
  exact absurd (h ▸ mem_squeezeTrim_of_nonblank ls l hl hb) (by simp)

/-! ### Lemmas about line splitting and joining -/

theorem splitNl_ne_nil (cs : List Char) : splitNl cs ≠ [] := by
  cases cs with
  | nil => exact List.cons_ne_nil _ _
  | cons c rest =>
    unfold splitNl
    split
    · exact List.cons_ne_nil _ _
    · split <;> exact List.cons_ne_nil _ _

theorem mem_splitNl_no_nl (cs : List Char) (l : List Char) (hl : l ∈ splitNl cs) :
    '\n' ∉ l := by
  induction cs generalizing l with
  | nil =>
    simp only [splitNl, List.mem_singleton] at hl
    subst hl
    simp
  | cons c rest ih =>
    unfold splitNl at hl
    by_cases hc : c = '\n'
    · rw [if_pos hc] at hl
      rcases List.mem_cons.mp hl with h | h
      · subst h; simp
      · exact ih l h
    · rw [if_neg hc] at hl
      revert hl
      cases hs : splitNl rest with
      | nil => exact absurd hs (splitNl_ne_nil rest)
      | cons l0 ls0 =>
        intro hl
        rcases List.mem_cons.mp hl with h | h
        · subst h
          intro hmem
          rcases List.mem_cons.mp hmem with h2 | h2
          · exact hc h2.symm
          · exact ih l0 (hs ▸ List.mem_cons_self _ _) h2
        · exact ih l (hs ▸ List.mem_cons_of_mem _ h)

theorem normCR_no_cr (cs : List Char) : '\r' ∉ normCR cs := by
  induction cs using normCR.induct with
  | case1 => simp [normCR]
  | case2 rest ih => simp [normCR]; exact ih
  | case3 rest hne ih => simp [normCR]; exact ih
  | case4 c rest hne hne2 ih =>
    rw [normCR.eq_4 c rest hne hne2]
    intro hmem
    rcases List.mem_cons.mp hmem with h | h
    · exact hne2 h.symm
    · exact ih h

theorem normCR_eq_self (cs : List Char) (h : '\r' ∉ cs) : normCR cs = cs := by
  induction cs using normCR.induct with
  | case1 => rfl
  | case2 rest ih => exact absurd (List.mem_cons_self _ _) h
  | case3 rest hne ih => exact absurd (List.mem_cons_self _ _) h
  | case4 c rest hne hne2 ih =>
    rw [normCR.eq_4 c rest hne hne2, ih (fun hc => h (List.mem_cons_of_mem _ hc))]

theorem splitNl_append_nl (cs : List Char) :
    splitNl (cs ++ ['\n']) = splitNl cs ++ [[]] := by
  induction cs with
  | nil => rfl
  | cons c rest ih =>
    rw [List.cons_append]
    by_cases hc : c = '\n'
    · simp only [splitNl, if_pos hc, ih, List.cons_append]
    · simp only [splitNl, if_neg hc, ih]
      cases hs : splitNl rest with
      | nil => exact absurd hs (splitNl_ne_nil rest)
      | cons l0 ls0 => simp

theorem splitNl_joinNl (lls : List (List Char)) (hne : lls ≠ [])
    (hnl : ∀ l ∈ lls, '\n' ∉ l) : splitNl (joinNl lls) = lls := by
  induction lls with
  | nil => exact absurd rfl hne
  | cons l ls ih =>
    cases ls with
    | nil =>
      have hl : '\n' ∉ l := hnl l (List.mem_cons_self _ _)
      show splitNl l = [l]
      clear hnl hne ih
      induction l with
      | nil => rfl
      | cons c t iht =>
        have hc : c ≠ '\n' := fun hcc => hl (by rw [hcc]; exact List.mem_cons_self _ _)
        have ht := iht (fun hx => hl (List.mem_cons_of_mem _ hx))
        simp only [splitNl, if_neg hc, ht]
    | cons l2 ls2 =>
      show splitNl (l ++ '\n' :: joinNl (l2 :: ls2)) = l :: l2 :: ls2
      have hl : '\n' ∉ l := hnl l (List.mem_cons_self _ _)
      have hrest : splitNl (joinNl (l2 :: ls2)) = l2 :: ls2 :=
        ih (List.cons_ne_nil _ _) (fun x hx => hnl x (List.mem_cons_of_mem _ hx))
      clear ih hnl hne
      induction l with
      | nil =>
        show splitNl ('\n' :: joinNl (l2 :: ls2)) = [] :: l2 :: ls2
        simp [splitNl, hrest]
      | cons c t iht =>
        have hc : c ≠ '\n' := fun hcc => hl (by rw [hcc]; exact List.mem_cons_self _ _)
        have ht := iht (fun hx => hl (List.mem_cons_of_mem _ hx))
        rw [List.cons_append]
        simp only [splitNl, if_neg hc]
        rw [ht]

theorem joinNl_no_cr (lls : List (List Char)) (h : ∀ l ∈ lls, '\r' ∉ l) :
    '\r' ∉ joinNl lls := by
  induction lls with
  | nil => simp [joinNl]
  | cons l ls ih =>
    cases ls with
    | nil => exact h l (List.mem_cons_self _ _)
    | cons l2 ls2 =>
      show '\r' ∉ l ++ '\n' :: joinNl (l2 :: ls2)
      intro hmem
      rcases List.mem_append.mp hmem with hm | hm
      · exact h l (List.mem_cons_self _ _) hm
      · rcases List.mem_cons.mp hm with hm2 | hm2
        · exact absurd hm2 (by decide)
        · exact ih (fun x hx => h x (List.mem_cons_of_mem _ hx)) hm2

theorem mem_splitNl_subset (cs : List Char) (l : List Char) (hl : l ∈ splitNl cs) :
    ∀ c ∈ l, c ∈ cs := by
  induction cs generalizing l with
  | nil =>
    simp only [splitNl, List.mem_singleton] at hl
    subst hl
    simp
  | cons c0 rest ih =>
    intro c hc
    unfold splitNl at hl
    by_cases hc0 : c0 = '\n'
    · rw [if_pos hc0] at hl
      rcases List.mem_cons.mp hl with h | h
      · subst h; exact absurd hc (by simp)
      · exact List.mem_cons_of_mem _ (ih l h c hc)
    · rw [if_neg hc0] at hl
      revert hl
      cases hs : splitNl rest with
      | nil => exact absurd hs (splitNl_ne_nil rest)
      | cons l0 ls0 =>
        intro hl
        rcases List.mem_cons.mp hl with h | h
        · subst h
          rcases List.mem_cons.mp hc with h2 | h2
          · rw [h2]; exact List.mem_cons_self _ _
          · exact List.mem_cons_of_mem _ (ih l0 (hs ▸ List.mem_cons_self _ _) c h2)
        · exact List.mem_cons_of_mem _ (ih l (hs ▸ List.mem_cons_of_mem _ h) c hc)

theorem mem_toLines_clean (s : String) (l : String) (hl : l ∈ toLines s) :
    '\n' ∉ l.data ∧ '\r' ∉ l.data := by
  unfold toLines at hl
  rcases List.mem_map.mp hl with ⟨cs, hcs, hmk⟩
  subst hmk
  constructor
  · exact mem_splitNl_no_nl _ cs hcs
  · intro hr
    exact normCR_no_cr s.data (mem_splitNl_subset _ cs hcs '\r' hr)

theorem toLines_eq_of_clean (s : String) (h : '\r' ∉ s.data) :
    toLines s = (splitNl s.data).map (fun cs => String.mk cs) := by
  unfold toLines
  rw [normCR_eq_self _ h]

theorem toLines_unlines_nl (L : List String) (hne : L ≠ [])
    (hclean : ∀ l ∈ L, '\n' ∉ l.data ∧ '\r' ∉ l.data) :
    toLines (unlines L ++ "\n") = L ++ [""] := by
  unfold toLines unlines
  have hdata : (String.mk (joinNl (L.map String.data)) ++ "\n").data =
      joinNl (L.map String.data) ++ ['\n'] := by
    rw [String.data_append]
  rw [hdata]
  have hnocr : '\r' ∉ joinNl (L.map String.data) ++ ['\n'] := by
    intro hmem
    rcases List.mem_append.mp hmem with h | h
    · exact joinNl_no_cr _ (by
        intro x hx
        rcases List.mem_map.mp hx with ⟨y, hy, hxy⟩
        subst hxy
        exact (hclean y hy).2) h
    · exact absurd (List.mem_singleton.mp h) (by decide)
  rw [normCR_eq_self _ hnocr, splitNl_append_nl,
    splitNl_joinNl (L.map String.data)
      (by intro h; exact hne (List.map_eq_nil_iff.mp h))
      (by
        intro x hx
        rcases List.mem_map.mp hx with ⟨y, hy, hxy⟩
        subst hxy
        exact (hclean y hy).1)]
  rw [List.map_append, List.map_map]
  have hid : (fun cs => String.mk cs) ∘ String.data = id := by
    funext x
    rfl
  rw [hid, List.map_id]
  rfl

theorem mem_normCR_of_mem (cs : List Char) (c : Char) (hc : c ∈ cs) (hne : c ≠ '\r') :
    c ∈ normCR cs := by
  induction cs using normCR.induct with
  | case1 => exact absurd hc (by simp)
  | case2 rest ih =>
    rcases List.mem_cons.mp hc with h | h
    · exact absurd h hne
    · rcases List.mem_cons.mp h with h2 | h2
      · rw [h2]; exact List.mem_cons_self _ _
      · exact List.mem_cons_of_mem _ (ih h2)
  | case3 rest hp ih =>
    rw [show normCR ('\r' :: rest) = '\n' :: normCR rest from normCR.eq_3 rest hp]
    rcases List.mem_cons.mp hc with h | h
    · exact absurd h hne
    · exact List.mem_cons_of_mem _ (ih h)
  | case4 c0 rest hp hp2 ih =>
    rw [normCR.eq_4 c0 rest hp hp2]
    rcases List.mem_cons.mp hc with h | h
    · rw [h]; exact List.mem_cons_self _ _
    · exact List.mem_cons_of_mem _ (ih h)

theorem exists_line_of_mem_splitNl (cs : List Char) (c : Char) (hc : c ∈ cs)
    (hne : c ≠ '\n') : ∃ l ∈ splitNl cs, c ∈ l := by
  induction cs with
  | nil => exact absurd hc (by simp)
  | cons c0 rest ih =>
    by_cases h0 : c0 = '\n'
    · have hcr : c ∈ rest := by
        rcases List.mem_cons.mp hc with h | h
        · exact absurd (h.trans h0) hne
        · exact h
      rcases ih hcr with ⟨l, hl, hcl⟩
      refine ⟨l, ?_, hcl⟩
      simp only [splitNl, if_pos h0]
      exact List.mem_cons_of_mem _ hl
    · rcases List.mem_cons.mp hc with h | h
      · refine ⟨(c0 :: (splitNl rest).headD []), ?_, ?_⟩
        · simp only [splitNl, if_neg h0]
          cases hs : splitNl rest with
          | nil => exact absurd hs (splitNl_ne_nil rest)
          | cons l0 ls0 => simp
        · rw [h]; exact List.mem_cons_self _ _
      · rcases ih h with ⟨l, hl, hcl⟩
        simp only [splitNl, if_neg h0]
        cases hs : splitNl rest with
        | nil => exact absurd hs (splitNl_ne_nil rest)
        | cons l0 ls0 =>
          rw [hs] at hl
          rcases List.mem_cons.mp hl with h2 | h2
          · exact ⟨c0 :: l0, List.mem_cons_self _ _, by rw [← h2] at *; exact List.mem_cons_of_mem _ hcl⟩
          · exact ⟨l, List.mem_cons_of_mem _ h2, hcl⟩

theorem exists_nonblank_line (s : String) (c : Char) (hc : c ∈ s.data)
    (hnl : c ≠ '\n') (hcr : c ≠ '\r') (hws : Char.isWhitespace c = false) :
    ∃ l ∈ toLines s, isBlankS l = false := by
  rcases exists_line_of_mem_splitNl (normCR s.data) c (mem_normCR_of_mem _ c hc hcr) hnl
    with ⟨l, hl, hcl⟩
  refine ⟨String.mk l, ?_, ?_⟩
  · unfold toLines
    exact List.mem_map.mpr ⟨l, hl, rfl⟩
  · unfold isBlankS
    rw [Bool.eq_false_iff]
    intro hall
    rw [List.all_eq_true] at hall
    exact absurd (hall c hcl) (by rw [hws]; exact Bool.false_ne_true)

/-! ### The serializer invariant -/

theorem noAdjBlank_iff_chain (ls : List String) :
    noAdjBlank ls = true ↔
      List.Chain' (fun a b => isBlankS a = false ∨ isBlankS b = false) ls := by
  induction ls with
  | nil => simp [noAdjBlank]
  | cons a t ih =>
    cases t with
    | nil => simp [noAdjBlank]
    | cons b r =>
      unfold noAdjBlank
      rw [Bool.and_eq_true, List.chain'_cons, ← ih]
      constructor
      · rintro ⟨h1, h2⟩
        refine ⟨?_, h2⟩
        cases ha : isBlankS a with
        | false => exact Or.inl rfl
        | true =>
          cases hb : isBlankS b with
          | false => exact Or.inr rfl
          | true =>
            rw [ha, hb] at h1
            exact absurd h1 (by decide)
      · rintro ⟨h1, h2⟩
        refine ⟨?_, h2⟩
        rcases h1 with h | h <;> simp [h]

theorem mem_collapse_cases (ls : List String) (l : String) (hl : l ∈ collapse ls) :
    l = "" ∨ l ∈ ls := by
  induction ls with
  | nil => exact absurd hl (by simp [collapse])
  | cons a t ih =>
    cases t with
    | nil =>
      simp only [collapse, List.mem_singleton] at hl
      subst hl
      unfold normBlank
      split
      · exact Or.inl rfl
      · exact Or.inr (List.mem_cons_self _ _)
    | cons b r =>
      unfold collapse at hl
      revert hl
      split
      · intro hl
        rcases ih hl with h | h
        · exact Or.inl h
        · exact Or.inr (List.mem_cons_of_mem _ h)
      · intro hl
        rcases List.mem_cons.mp hl with h | h
        · subst h
          unfold normBlank
          split
          · exact Or.inl rfl
          · exact Or.inr (List.mem_cons_self _ _)
        · rcases ih h with h2 | h2
          · exact Or.inl h2
          · exact Or.inr (List.mem_cons_of_mem _ h2)

theorem mem_squeezeTrim_cases (ls : List String) (l : String) (hl : l ∈ squeezeTrim ls) :
    l = "" ∨ l ∈ ls := by
  unfold squeezeTrim at hl
  have h1 : l ∈ dropTrailBlanks (collapse ls) :=
    (List.dropWhile_suffix isBlankS).mem hl
  have h2 : l ∈ collapse ls := (dropTrailBlanks_pre (collapse ls)).mem h1
  exact mem_collapse_cases ls l h2

theorem chain'_squeezeTrim (ls : List String) :
    List.Chain' (fun a b => isBlankS a = false ∨ isBlankS b = false) (squeezeTrim ls) := by
  unfold squeezeTrim
  have h1 := List.Chain'.prefix (chain'_collapse ls) (dropTrailBlanks_pre _)
  exact h1.suffix (List.dropWhile_suffix isBlankS)

theorem squeezeTrim_getLast (ls : List String) (x : String)
    (h : (squeezeTrim ls).getLast? = some x) : isBlankS x = false := by
  unfold squeezeTrim at h
  rcases List.dropWhile_suffix (l := dropTrailBlanks (collapse ls)) isBlankS with ⟨t, ht⟩
  have hne : (dropTrailBlanks (collapse ls)).dropWhile isBlankS ≠ [] := by
    intro hc
    rw [hc] at h
    exact absurd h (by simp)
  rw [← getLast?_append_right t _ hne, ht] at h
  exact dropTrailBlanks_getLast _ x h

theorem mem_structuredLines_clean (d : Document) (l : String)
    (hl : l ∈ structuredLines d) : '\n' ∉ l.data ∧ '\r' ∉ l.data := by
  unfold structuredLines at hl
  rcases List.mem_append.mp hl with h | h
  · rcases List.mem_flatMap.mp h with ⟨x, _, hx⟩
    exact mem_toLines_clean x l hx
  · rcases List.mem_flatMap.mp h with ⟨s, _, hx⟩
    unfold secChunk at hx
    rcases List.mem_append.mp hx with h2 | h2
    · rcases List.mem_append.mp h2 with h3 | h3
      · rcases List.mem_append.mp h3 with h4 | h4
        · rcases List.mem_singleton.mp h4 with rfl
          exact ⟨by simp, by simp⟩
        · exact mem_toLines_clean _ l h4
      · rcases List.mem_singleton.mp h3 with rfl
        exact ⟨by simp, by simp⟩
    · exact mem_toLines_clean _ l h2

theorem okSpacing_render (d : Document)
    (h : squeezeTrim (structuredLines d) ≠ []) : okSpacing (render d) = true := by
  unfold render
  revert h
  cases hsq : squeezeTrim (structuredLines d) with
  | nil => intro h; exact absurd rfl h
  | cons l0 L0 =>
    intro _
    have hclean : ∀ l ∈ l0 :: L0, '\n' ∉ l.data ∧ '\r' ∉ l.data := by
      intro l hl
      rcases mem_squeezeTrim_cases _ l (hsq ▸ hl) with h2 | h2
      · subst h2; exact ⟨by simp, by simp⟩
      · exact mem_structuredLines_clean d l h2
    have hlines : toLines (unlines (l0 :: L0) ++ "\n") = (l0 :: L0) ++ [""] :=
      toLines_unlines_nl _ (List.cons_ne_nil _ _) hclean
    unfold okSpacing
    rw [hlines]
    have hne : (unlines (l0 :: L0) ++ "\n") ≠ "" := by
      intro hc
      have := congrArg String.data hc
      rw [String.data_append] at this
      exact absurd (List.append_eq_nil.mp this).2 (by simp [String.data])
    refine (Bool.and_eq_true _ _).mpr ⟨(Bool.and_eq_true _ _).mpr ⟨?_, ?_⟩, ?_⟩
    · simpa using hne
    · rw [noAdjBlank_iff_chain, List.chain'_append]
      refine ⟨?_, List.chain'_singleton _, ?_⟩
      · rw [← hsq]; exact chain'_squeezeTrim _
      · intro x hx y hy
        rcases List.mem_singleton.mp (by simpa using hy) with rfl
        exact Or.inl (squeezeTrim_getLast _ x (by rw [hsq]; exact hx))
    · rw [getLast?_append_right _ _ (List.cons_ne_nil _ _)]
      simp

theorem mem_structured_of_raw (d : Document) (s : Section) (hs : s ∈ d.sections)
    (l : String) (hl : l ∈ toLines s.rawContent) : l ∈ structuredLines d := by
  unfold structuredLines
  refine List.mem_append.mpr (Or.inr ?_)
  refine List.mem_flatMap.mpr ⟨s, hs, ?_⟩
  unfold secChunk
  exact List.mem_append.mpr (Or.inr hl)

theorem mem_structured_of_header (d : Document) (s : Section) (hs : s ∈ d.sections)
    (l : String) (hl : l ∈ toLines s.header) : l ∈ structuredLines d := by
  unfold structuredLines
  refine List.mem_append.mpr (Or.inr ?_)
  refine List.mem_flatMap.mpr ⟨s, hs, ?_⟩
  unfold secChunk
  exact List.mem_append.mpr (Or.inl (List.mem_append.mpr (Or.inl
    (List.mem_append.mpr (Or.inr hl)))))

theorem dash_mem_append_left (a b : String) (h : '-' ∈ a.data) : '-' ∈ (a ++ b).data := by
  rw [String.data_append]
  exact List.mem_append.mpr (Or.inl h)

theorem dash_mem_formatCommitEntry (e : CommitEntry) :
    '-' ∈ (formatCommitEntry e).data := by
  unfold formatCommitEntry
  dsimp only
  split
  · exact dash_mem_append_left _ _ (dash_mem_append_left _ _ (dash_mem_append_left _ _
      (dash_mem_append_left _ _ (dash_mem_append_left _ _ (by decide)))))
  · exact dash_mem_append_left _ _ (dash_mem_append_left _ _
      (dash_mem_append_left _ _ (by decide)))

theorem joinNl_mem_of_head (x : List Char) (xs : List (List Char)) (c : Char)
    (hc : c ∈ x) : c ∈ joinNl (x :: xs) := by
  cases xs with
  | nil => exact hc
  | cons y ys =>
    show c ∈ x ++ '\n' :: joinNl (y :: ys)
    exact List.mem_append.mpr (Or.inl hc)

theorem dash_mem_appendEntriesText (old : String) (e : CommitEntry)
    (es : List CommitEntry) : '-' ∈ (appendEntriesText old (e :: es)).data := by
  unfold appendEntriesText
  have hblock : '-' ∈ (unlines ((e :: es).map formatCommitEntry)).data := by
    unfold unlines
    show '-' ∈ joinNl (((e :: es).map formatCommitEntry).map String.data)
    rw [List.map_cons, List.map_cons]
    exact joinNl_mem_of_head _ _ '-' (dash_mem_formatCommitEntry e)
  dsimp only
  split
  · exact hblock
  · rw [String.data_append]
    exact List.mem_append.mpr (Or.inr hblock)

theorem updateFirstUnrel_mem (f : String → String) (ss : List Section)
    (h : ∃ u ∈ ss, isUnrelSec u = true) :
    ∃ old, ∃ s ∈ updateFirstUnrel f ss, s.rawContent = f old := by
  induction ss with
  | nil =>
    rcases h with ⟨u, hu, _⟩
    exact absurd hu (by simp)
  | cons s rest ih =>
    unfold updateFirstUnrel
    by_cases hs : isUnrelSec s = true
    · rw [if_pos hs]
      exact ⟨s.rawContent, { s with rawContent := f s.rawContent },
        List.mem_cons_self _ _, rfl⟩
    · rw [if_neg hs]
      rcases h with ⟨u, hu, hu2⟩
      rcases List.mem_cons.mp hu with h2 | h2
      · exact absurd (h2 ▸ hu2) hs
      · rcases ih ⟨u, h2, hu2⟩ with ⟨old, s2, hs2, hraw⟩
        exact ⟨old, s2, List.mem_cons_of_mem _ hs2, hraw⟩

theorem addToUnreleased_write (file : Option String) (e : CommitEntry)
    (es : List CommitEntry) (hdr : String) :
    ∃ d, addToUnreleased file (e :: es) hdr = some (render d) ∧
      squeezeTrim (structuredLines d) ≠ [] := by
  unfold addToUnreleased
  rw [if_neg (by simp)]
  have hkey : ∀ d0 : Document, (∃ u ∈ d0.sections, isUnrelSec u = true) →
      squeezeTrim (structuredLines
        { d0 with sections :=
            updateFirstUnrel (fun r => appendEntriesText r (e :: es)) d0.sections }) ≠ [] := by
    intro d0 hu
    rcases updateFirstUnrel_mem (fun r => appendEntriesText r (e :: es)) d0.sections hu
      with ⟨old, s, hs, hraw⟩
    rcases exists_nonblank_line s.rawContent '-'
      (by rw [hraw]; exact dash_mem_appendEntriesText old e es)
      (by decide) (by decide) (by decide) with ⟨l, hl, hlb⟩
    exact squeezeTrim_ne_nil_of_mem _ l
      (mem_structured_of_raw _ s hs l hl) hlb
  cases file with
  | none =>
    refine ⟨_, rfl, ?_⟩
    apply hkey
    exact ⟨_, List.mem_cons_self _ _, rfl⟩
  | some c =>
    dsimp only
    by_cases hany : (parseDoc hdr c).sections.any isUnrelSec = true
    · rw [if_pos hany]
      refine ⟨_, rfl, ?_⟩
      apply hkey
      rcases List.any_eq_true.mp hany with ⟨u, hu, hu2⟩
      exact ⟨u, hu, hu2⟩
    · rw [if_neg hany]
      refine ⟨_, rfl, ?_⟩
      apply hkey
      exact ⟨_, List.mem_cons_self _ _, rfl⟩

theorem hash_mem_version_header (bare date : String) :
    '#' ∈ ("## v" ++ bare ++ " (" ++ date ++ ")").data := by
  rw [String.data_append]
  refine List.mem_append.mpr (Or.inl ?_)
  rw [String.data_append]
  refine List.mem_append.mpr (Or.inl ?_)
  rw [String.data_append]
  refine List.mem_append.mpr (Or.inl ?_)
  rw [String.data_append]
  exact List.mem_append.mpr (Or.inl (by decide))

theorem promote_write (file : Option String) (v dt hdr c : String)
    (h : promoteUnreleasedToVersion file v dt hdr = Except.ok c) :
    ∃ d, c = render d ∧ squeezeTrim (structuredLines d) ≠ [] := by
  unfold promoteUnreleasedToVersion at h
  dsimp only at h
  revert h
  cases hf : findFirstUnrel (docOf hdr file).sections with
  | none => intro h; exact absurd h (by simp)
  | some u =>
    dsimp only
    by_cases ht : (trimS u.rawContent == "") = true
    · rw [if_pos ht]
      intro h
      exact absurd h (by simp)
    · rw [if_neg ht]
      intro h
      injection h with h1
      refine ⟨_, h1.symm, ?_⟩
      rcases exists_nonblank_line ("## v" ++ stripV v ++ " (" ++ dt ++ ")") '#'
        (hash_mem_version_header (stripV v) dt) (by decide) (by decide) (by decide)
        with ⟨l, hl, hlb⟩
      refine squeezeTrim_ne_nil_of_mem _ l ?_ hlb
      refine mem_structured_of_header _
        { header := "## v" ++ stripV v ++ " (" ++ dt ++ ")"
          kind := SecKind.version (stripV v) (some dt)
          rawContent := u.rawContent } ?_ l hl
      exact List.mem_cons_of_mem _ (List.mem_cons_self _ _)

theorem addVersionSection_write (file : Option String) (v dt : String)
    (e : CommitEntry) (es : List CommitEntry) (hdr : String) :
    ∃ d, addVersionSection file v dt (e :: es) hdr = some (render d) ∧
      squeezeTrim (structuredLines d) ≠ [] := by
  unfold addVersionSection
  rw [if_neg (by simp)]
  have hhead : ∀ (pre : List String) (ss : List Section),
      ({ header := "## v" ++ stripV v ++ " (" ++ dt ++ ")"
         kind := SecKind.version (stripV v) (some dt)
         rawContent := unlines ((e :: es).map formatCommitEntry) } : Section) ∈ ss →
      squeezeTrim (structuredLines { preambleLines := pre, sections := ss }) ≠ [] := by
    intro pre ss hmem
    rcases exists_nonblank_line ("## v" ++ stripV v ++ " (" ++ dt ++ ")") '#'
      (hash_mem_version_header (stripV v) dt) (by decide) (by decide) (by decide)
      with ⟨l, hl, hlb⟩
    exact squeezeTrim_ne_nil_of_mem _ l
      (mem_structured_of_header _ _ hmem l hl) hlb
  cases file with
  | none =>
    dsimp only
    refine ⟨_, rfl, ?_⟩
    apply hhead
    exact List.mem_cons_self _ _
  | some c =>
    dsimp only
    cases hsecs : (parseDoc hdr c).sections with
    | nil =>
      refine ⟨_, rfl, ?_⟩
      apply hhead
      exact List.mem_cons_self _ _
    | cons s rest =>
      by_cases hs : isUnrelSec s = true
      · refine ⟨_, rfl, ?_⟩
        dsimp only
        rw [if_pos hs]
        apply hhead
        exact List.mem_cons_of_mem _ (List.mem_cons_self _ _)
      · refine ⟨_, rfl, ?_⟩
        dsimp only
        rw [if_neg hs]
        apply hhead
        exact List.mem_cons_self _ _

/-- C1. The serializer's blank-line invariant (spec 4.6): every content
written to disk during any finite sequence of mutations, starting from
any file state, contains no two consecutive blank lines and ends with
exactly one trailing newline — transitively across the whole sequence. -/
theorem c1_serializer_blank_line_invariant (ms : List Mutation) (file : Option String)
    (c : String) (hc : c ∈ writtenDuring ms file) : okSpacing c = true := by
  induction ms generalizing file with
  | nil => exact absurd hc (by simp [writtenDuring])
  | cons m ms ih =>
    unfold writtenDuring at hc
    dsimp only at hc
    rcases List.mem_append.mp hc with hw | hw
    · have h2 : (applyMutation m file).2 = some c := by
        revert hw
        cases hsnd : (applyMutation m file).2 with
        | none => intro hw; simp at hw
        | some w => intro hw; simp at hw; rw [hw]
      cases m with
      | add entries hdr =>
        cases entries with
        | nil =>
          rw [show (applyMutation (Mutation.add [] hdr) file).2 = none from rfl] at h2
          exact absurd h2 (by simp)
        | cons e es =>
          rcases addToUnreleased_write file e es hdr with ⟨d, hd, hne⟩
          have hsnd2 : (applyMutation (Mutation.add (e :: es) hdr) file).2 =
              addToUnreleased file (e :: es) hdr := by
            unfold applyMutation
            dsimp only
            rw [if_neg (by simp)]
          rw [hsnd2, hd] at h2
          injection h2 with h3
          rw [← h3]
          exact okSpacing_render d hne
      | promote v dt hdr =>
        cases hp : promoteUnreleasedToVersion file v dt hdr with
        | error msg =>
          have hsnd2 : (applyMutation (Mutation.promote v dt hdr) file).2 = none := by
            unfold applyMutation
            dsimp only
            rw [hp]
          rw [hsnd2] at h2
          exact absurd h2 (by simp)
        | ok c2 =>
          have hsnd2 : (applyMutation (Mutation.promote v dt hdr) file).2 = some c2 := by
            unfold applyMutation
            dsimp only
            rw [hp]
          rw [hsnd2] at h2
          injection h2 with h3
          rcases promote_write file v dt hdr c2 hp with ⟨d, hd, hne⟩
          rw [← h3, hd]
          exact okSpacing_render d hne
      | addVer v dt entries hdr =>
        cases entries with
        | nil =>
          rw [show (applyMutation (Mutation.addVer v dt [] hdr) file).2 = none from rfl] at h2
          exact absurd h2 (by simp)
        | cons e es =>
          rcases addVersionSection_write file v dt e es hdr with ⟨d, hd, hne⟩
          have hsnd2 : (applyMutation (Mutation.addVer v dt (e :: es) hdr) file).2 =
              addVersionSection file v dt (e :: es) hdr := by
            unfold applyMutation
            dsimp only
            rw [if_neg (by simp)]
          rw [hsnd2, hd] at h2
          injection h2 with h3
          rw [← h3]
          exact okSpacing_render d hne
    · exact ih _ hw

/-- Witness for C1: a concrete written file from a concrete mutation
sequence satisfies the invariant. -/
theorem c1_serializer_blank_line_invariant_witness :
    okSpacing ("# Changelog\n\n## Unreleased\n\n- Existing entry\n- New feature by @davesnx (#42)\n\n## v1.0.0\n\n- Released feature\n") = true :=
  c1_serializer_blank_line_invariant
    [Mutation.add [exEntryA] defaultUnreleasedHeader] (some exBasic) _ (by decide)

/-! ### Decomposition lemmas for the serialize-reparse cycle -/

theorem takeWhile_append_all {α : Type} (p : α → Bool) (a b : List α)
    (h : ∀ x ∈ a, p x = true) : (a ++ b).takeWhile p = a ++ b.takeWhile p := by
  induction a with
  | nil => rfl
  | cons x t ih =>
    rw [List.cons_append, List.takeWhile_cons, if_pos (h x (List.mem_cons_self _ _)),
      ih (fun y hy => h y (List.mem_cons_of_mem _ hy)), List.cons_append]

theorem dropWhile_append_all {α : Type} (p : α → Bool) (a b : List α)
    (h : ∀ x ∈ a, p x = true) : (a ++ b).dropWhile p = b.dropWhile p := by
  induction a with
  | nil => rfl
  | cons x t ih =>
    rw [List.cons_append, List.dropWhile_cons, if_pos (h x (List.mem_cons_self _ _)),
      ih (fun y hy => h y (List.mem_cons_of_mem _ hy))]

theorem takeWhile_append_stop {α : Type} (p : α → Bool) (a : List α) (x : α) (b : List α)
    (ha : ∀ y ∈ a, p y = true) (hx : p x = false) :
    (a ++ x :: b).takeWhile p = a ∧ (a ++ x :: b).dropWhile p = x :: b := by
  constructor
  · rw [takeWhile_append_all p a _ ha, List.takeWhile_cons, if_neg (by rw [hx]; exact Bool.false_ne_true),
      List.append_nil]
  · rw [dropWhile_append_all p a _ ha, List.dropWhile_cons, if_neg (by rw [hx]; exact Bool.false_ne_true)]

theorem collapse_append_nonblank (a : List String) (x : String) (b : List String)
    (hx : isBlankS x = false) :
    collapse (a ++ x :: b) = collapse a ++ collapse (x :: b) := by
  induction a with
  | nil => rfl
  | cons a0 t ih =>
    cases t with
    | nil =>
      show collapse (a0 :: x :: b) = collapse [a0] ++ collapse (x :: b)
      unfold collapse
      rw [if_neg (by rw [hx]; simp)]
      cases b <;> rfl
    | cons a1 t2 =>
      show collapse (a0 :: a1 :: (t2 ++ x :: b)) = collapse (a0 :: a1 :: t2) ++ collapse (x :: b)
      rw [show collapse (a0 :: a1 :: (t2 ++ x :: b)) =
          (if isBlankS a0 && isBlankS a1 then collapse (a1 :: (t2 ++ x :: b))
           else normBlank a0 :: collapse (a1 :: (t2 ++ x :: b))) from rfl]
      rw [show collapse (a0 :: a1 :: t2) =
          (if isBlankS a0 && isBlankS a1 then collapse (a1 :: t2)
           else normBlank a0 :: collapse (a1 :: t2)) from rfl]
      have ih2 : collapse (a1 :: (t2 ++ x :: b)) = collapse (a1 :: t2) ++ collapse (x :: b) := by
        have := ih
        rw [List.cons_append] at this
        exact this
      split
      · exact ih2
      · rw [ih2, List.cons_append]

theorem dropTrailBlanks_append_blank (ls : List String) :
    dropTrailBlanks (ls ++ [""]) = dropTrailBlanks ls := by
  induction ls with
  | nil => rfl
  | cons a t ih =>
    rw [List.cons_append]
    show (match dropTrailBlanks (t ++ [""]) with
      | [] => if isBlankS a then [] else [a]
      | r => a :: r) = dropTrailBlanks (a :: t)
    rw [ih]
    rfl

theorem dropTrailBlanks_cons_congr (a : String) (w1 w2 : List String)
    (h : dropTrailBlanks w1 = dropTrailBlanks w2) :
    dropTrailBlanks (a :: w1) = dropTrailBlanks (a :: w2) := by
  show (match dropTrailBlanks w1 with
    | [] => if isBlankS a then [] else [a]
    | r => a :: r) = (match dropTrailBlanks w2 with
    | [] => if isBlankS a then [] else [a]
    | r => a :: r)
  rw [h]

theorem dropTrailBlanks_cons_of_nonblank (a : String) (t : List String)
    (ha : isBlankS a = false) :
    dropTrailBlanks (a :: t) = a :: dropTrailBlanks t := by
  show (match dropTrailBlanks t with
    | [] => if isBlankS a then [] else [a]
    | r => a :: r) = a :: dropTrailBlanks t
  cases h : dropTrailBlanks t with
  | nil => rw [if_neg (by rw [ha]; exact Bool.false_ne_true)]
  | cons x r => rfl

theorem dropTrailBlanks_append_right (a b : List String)
    (h : dropTrailBlanks b ≠ []) :
    dropTrailBlanks (a ++ b) = a ++ dropTrailBlanks b := by
  induction a with
  | nil => rfl
  | cons x t ih =>
    rw [List.cons_append]
    show (match dropTrailBlanks (t ++ b) with
      | [] => if isBlankS x then [] else [x]
      | r => x :: r) = x :: (t ++ dropTrailBlanks b)
    rw [ih]
    cases ht : t ++ dropTrailBlanks b with
    | nil =>
      rcases List.append_eq_nil.mp ht with ⟨_, h2⟩
      exact absurd h2 h
    | cons y r => rfl

theorem dropTrailBlanks_idem (ls : List String) :
    dropTrailBlanks (dropTrailBlanks ls) = dropTrailBlanks ls := by
  induction ls with
  | nil => rfl
  | cons a t ih =>
    show dropTrailBlanks (match dropTrailBlanks t with
      | [] => if isBlankS a then [] else [a]
      | r => a :: r) = (match dropTrailBlanks t with
      | [] => if isBlankS a then [] else [a]
      | r => a :: r)
    cases h : dropTrailBlanks t with
    | nil =>
      by_cases ha : isBlankS a = true
      · rw [if_pos ha]
        rfl
      · rw [if_neg ha]
        show (match dropTrailBlanks [] with
          | [] => if isBlankS a then [] else [a]
          | r => a :: r) = [a]
        rw [show dropTrailBlanks ([] : List String) = [] from rfl, if_neg ha]
    | cons x r =>
      rw [h] at ih
      show dropTrailBlanks (a :: x :: r) = a :: x :: r
      show (match dropTrailBlanks (x :: r) with
        | [] => if isBlankS a then [] else [a]
        | r2 => a :: r2) = a :: x :: r
      rw [ih]

theorem dropWhileBlank_append_nonblank (a : List String) (x : String) (b : List String)
    (hx : isBlankS x = false) :
    (a ++ x :: b).dropWhile isBlankS = a.dropWhile isBlankS ++ x :: b := by
  induction a with
  | nil =>
    rw [List.nil_append, List.dropWhile_cons, if_neg (by rw [hx]; exact Bool.false_ne_true)]
    rfl
  | cons y t ih =>
    rw [List.cons_append, List.dropWhile_cons, List.dropWhile_cons]
    split
    · exact ih
    · rw [List.cons_append]

theorem dropFront_dropTrail_comm (ls : List String) :
    dropTrailBlanks (ls.dropWhile isBlankS) = (dropTrailBlanks ls).dropWhile isBlankS := by
  induction ls with
  | nil => rfl
  | cons a t ih =>
    have hmatch : dropTrailBlanks (a :: t) = (match dropTrailBlanks t with
      | [] => if isBlankS a then [] else [a]
      | r => a :: r) := rfl
    by_cases ha : isBlankS a = true
    · rw [List.dropWhile_cons, if_pos ha, ih, hmatch]
      cases h : dropTrailBlanks t with
      | nil => rw [if_pos ha]
      | cons x r =>
        conv_rhs => rw [List.dropWhile_cons]
        rw [if_pos ha]
    · rw [List.dropWhile_cons, if_neg ha, hmatch]
      cases h : dropTrailBlanks t with
      | nil =>
        rw [if_neg ha, List.dropWhile_cons, if_neg ha]
      | cons x r =>
        show a :: x :: r = List.dropWhile isBlankS (a :: x :: r)
        rw [List.dropWhile_cons, if_neg ha]

/-! ### Collapse and trim interaction lemmas -/

theorem normBlank_of_nonblank (a : String) (ha : isBlankS a = false) : normBlank a = a := by
  unfold normBlank
  rw [ha]
  rfl

theorem normBlank_of_blank (a : String) (ha : isBlankS a = true) : normBlank a = "" := by
  unfold normBlank
  rw [ha]
  rfl

theorem collapse_cons_of_nonblank (a : String) (t : List String) (ha : isBlankS a = false) :
    collapse (a :: t) = a :: collapse t := by
  cases t with
  | nil =>
    show [normBlank a] = [a]
    rw [normBlank_of_nonblank a ha]
  | cons b r =>
    show (if isBlankS a && isBlankS b then collapse (b :: r)
          else normBlank a :: collapse (b :: r)) = a :: collapse (b :: r)
    rw [ha, Bool.false_and, if_neg Bool.false_ne_true, normBlank_of_nonblank a ha]

theorem collapse_all_nonblank (ls : List String) (h : ∀ l ∈ ls, isBlankS l = false) :
    collapse ls = ls := by
  induction ls with
  | nil => rfl
  | cons a t ih =>
    rw [collapse_cons_of_nonblank a t (h a (List.mem_cons_self _ _)),
      ih (fun l hl => h l (List.mem_cons_of_mem _ hl))]

theorem bool_eq_false (b : Bool) (h : ¬b = true) : b = false := by
  cases b
  · rfl
  · exact absurd rfl h

theorem dropFront_collapse_blank_cons (b : String) (R : List String) (hb : isBlankS b = true) :
    (collapse (b :: R)).dropWhile isBlankS = (collapse R).dropWhile isBlankS := by
  cases R with
  | nil =>
    show List.dropWhile isBlankS [normBlank b] = List.dropWhile isBlankS []
    rw [normBlank_of_blank b hb]
    rfl
  | cons r R2 =>
    show List.dropWhile isBlankS
        (if isBlankS b && isBlankS r then collapse (r :: R2)
         else normBlank b :: collapse (r :: R2))
      = List.dropWhile isBlankS (collapse (r :: R2))
    rw [hb, Bool.true_and]
    by_cases hr : isBlankS r = true
    · rw [if_pos hr]
    · rw [if_neg hr, normBlank_of_blank b hb, List.dropWhile_cons,
        if_pos (show isBlankS "" = true from rfl)]

theorem dropTrail_collapse_append_blank (X : List String) :
    dropTrailBlanks (collapse (X ++ [""])) = dropTrailBlanks (collapse X) := by
  induction X with
  | nil => rfl
  | cons x X2 ih =>
    cases X2 with
    | nil =>
      show dropTrailBlanks (collapse [x, ""]) = dropTrailBlanks [normBlank x]
      show dropTrailBlanks
          (if isBlankS x && isBlankS "" then collapse [""] else normBlank x :: collapse [""])
        = dropTrailBlanks [normBlank x]
      rw [show isBlankS "" = true from rfl, Bool.and_true]
      by_cases hx : isBlankS x = true
      · rw [if_pos hx, normBlank_of_blank x hx]
        rfl
      · rw [if_neg hx, normBlank_of_nonblank x (bool_eq_false _ hx)]
        exact dropTrailBlanks_cons_congr x [""] [] rfl
    | cons y Y =>
      simp only [List.cons_append]
      rw [show collapse (x :: y :: (Y ++ [""])) =
          (if isBlankS x && isBlankS y then collapse (y :: (Y ++ [""]))
           else normBlank x :: collapse (y :: (Y ++ [""]))) from rfl]
      rw [show collapse (x :: y :: Y) =
          (if isBlankS x && isBlankS y then collapse (y :: Y)
           else normBlank x :: collapse (y :: Y)) from rfl]
      have ih2 : dropTrailBlanks (collapse (y :: (Y ++ [""]))) =
          dropTrailBlanks (collapse (y :: Y)) := by
        have := ih
        rwa [List.cons_append] at this
      by_cases hxy : (isBlankS x && isBlankS y) = true
      · rw [if_pos hxy, if_pos hxy]
        exact ih2
      · rw [if_neg hxy, if_neg hxy]
        exact dropTrailBlanks_cons_congr _ _ _ ih2

theorem splitNl_no_nl (cs : List Char) (h : '\n' ∉ cs) : splitNl cs = [cs] := by
  induction cs with
  | nil => rfl
  | cons c t ih =>
    have hc : c ≠ '\n' := fun hcc => h (by rw [hcc]; exact List.mem_cons_self _ _)
    have ht := ih (fun hx => h (List.mem_cons_of_mem _ hx))
    simp only [splitNl, if_neg hc, ht]

theorem mk_data_eq (s : String) : String.mk s.data = s := rfl

theorem toLines_single (s : String) (hn : '\n' ∉ s.data) (hr : '\r' ∉ s.data) :
    toLines s = [s] := by
  unfold toLines
  rw [normCR_eq_self _ hr, splitNl_no_nl _ hn]
  rfl

theorem flatMap_toLines_id (ls : List String)
    (h : ∀ l ∈ ls, '\n' ∉ l.data ∧ '\r' ∉ l.data) : ls.flatMap toLines = ls := by
  induction ls with
  | nil => rfl
  | cons a t ih =>
    rw [List.flatMap_cons,
      toLines_single a (h a (List.mem_cons_self _ _)).1 (h a (List.mem_cons_self _ _)).2,
      ih (fun l hl => h l (List.mem_cons_of_mem _ hl))]
    rfl

theorem toLines_unlines (L : List String) (hne : L ≠ [])
    (hclean : ∀ l ∈ L, '\n' ∉ l.data ∧ '\r' ∉ l.data) :
    toLines (unlines L) = L := by
  unfold toLines unlines
  have hnocr : '\r' ∉ joinNl (L.map String.data) := by
    apply joinNl_no_cr
    intro x hx
    rcases List.mem_map.mp hx with ⟨y, hy, hxy⟩
    subst hxy
    exact (hclean y hy).2
  rw [mk_data_eq (String.mk (joinNl (List.map String.data L)))]
  rw [show (String.mk (joinNl (List.map String.data L))).data =
      joinNl (List.map String.data L) from rfl]
  rw [normCR_eq_self _ hnocr,
    splitNl_joinNl (L.map String.data)
      (by intro h; exact hne (List.map_eq_nil_iff.mp h))
      (by
        intro x hx
        rcases List.mem_map.mp hx with ⟨y, hy, hxy⟩
        subst hxy
        exact (hclean y hy).1)]
  rw [List.map_map]
  have hid : (fun cs => String.mk cs) ∘ String.data = id := by
    funext x
    rfl
  rw [hid, List.map_id]

/-! ### Chunk-content lemmas -/

theorem trimBlankEdges_swap (ls : List String) :
    trimBlankEdges ls = (dropTrailBlanks ls).dropWhile isBlankS := by
  unfold trimBlankEdges
  exact dropFront_dropTrail_comm ls

theorem trim_chunk_mid (R : List String) :
    trimBlankEdges (collapse ("" :: (R ++ [""]))) = squeezeTrim R := by
  rw [trimBlankEdges_swap,
    show ("" :: (R ++ [""])) = (("" :: R) ++ [""]) from rfl,
    dropTrail_collapse_append_blank ("" :: R),
    ← dropFront_dropTrail_comm,
    dropFront_collapse_blank_cons "" R rfl,
    dropFront_dropTrail_comm]
  rfl

theorem trim_chunk_last (R : List String) :
    trimBlankEdges (dropTrailBlanks (collapse ("" :: R)) ++ [""]) = squeezeTrim R := by
  rw [trimBlankEdges_swap, dropTrailBlanks_append_blank, dropTrailBlanks_idem,
    ← dropFront_dropTrail_comm,
    dropFront_collapse_blank_cons "" R rfl,
    dropFront_dropTrail_comm]
  rfl

/-! ### Structured-line regrouping -/

theorem chunksFrom_head (s : Section) (rest : List Section) :
    ∃ T, chunksFrom (s :: rest) = s.header :: T := by
  cases rest with
  | nil => exact ⟨"" :: toLines s.rawContent, rfl⟩
  | cons s2 rest2 =>
    exact ⟨("" :: (toLines s.rawContent ++ [""])) ++ chunksFrom (s2 :: rest2), rfl⟩

theorem renderChunks_head (s : Section) (rest : List Section) :
    ∃ T, renderChunks (s :: rest) = s.header :: T := by
  cases rest with
  | nil => exact ⟨collapse ("" :: toLines s.rawContent), rfl⟩
  | cons s2 rest2 =>
    exact ⟨collapse ("" :: (toLines s.rawContent ++ [""])) ++ renderChunks (s2 :: rest2), rfl⟩

theorem flatMap_secChunk_eq (ss : List Section) (hne : ss ≠ [])
    (hh : ∀ s ∈ ss, toLines s.header = [s.header]) :
    ss.flatMap secChunk = "" :: chunksFrom ss := by
  induction ss with
  | nil => exact absurd rfl hne
  | cons s rest ih =>
    cases rest with
    | nil =>
      show secChunk s ++ [] = "" :: chunksFrom [s]
      rw [List.append_nil]
      unfold secChunk
      rw [hh s (List.mem_cons_self _ _)]
      rfl
    | cons s2 rest2 =>
      show secChunk s ++ (s2 :: rest2).flatMap secChunk = "" :: chunksFrom (s :: s2 :: rest2)
      rw [ih (List.cons_ne_nil _ _) (fun x hx => hh x (List.mem_cons_of_mem _ hx))]
      unfold secChunk
      rw [hh s (List.mem_cons_self _ _)]
      show "" :: s.header :: "" :: (toLines s.rawContent ++ "" :: chunksFrom (s2 :: rest2))
        = "" :: ((s.header :: "" :: (toLines s.rawContent ++ [""])) ++ chunksFrom (s2 :: rest2))
      simp [List.append_assoc]

theorem collapse_chunksFrom (ss : List Section)
    (hh : ∀ s ∈ ss, isBlankS s.header = false) :
    collapse (chunksFrom ss) = renderChunks ss := by
  induction ss with
  | nil => rfl
  | cons s rest ih =>
    cases rest with
    | nil =>
      show collapse (s.header :: ("" :: toLines s.rawContent))
        = s.header :: collapse ("" :: toLines s.rawContent)
      exact collapse_cons_of_nonblank _ _ (hh s (List.mem_cons_self _ _))
    | cons s2 rest2 =>
      obtain ⟨T, hT⟩ := chunksFrom_head s2 rest2
      show collapse ((s.header :: "" :: (toLines s.rawContent ++ [""])) ++ chunksFrom (s2 :: rest2))
        = (s.header :: collapse ("" :: (toLines s.rawContent ++ [""]))) ++ renderChunks (s2 :: rest2)
      rw [hT,
        show (s.header :: "" :: (toLines s.rawContent ++ [""])) ++ s2.header :: T
          = (s.header :: "" :: (toLines s.rawContent ++ [""])) ++ s2.header :: T from rfl,
        collapse_append_nonblank _ _ _ (hh s2 (List.mem_cons_of_mem _ (List.mem_cons_self _ _))),
        collapse_cons_of_nonblank s.header _ (hh s (List.mem_cons_self _ _)),
        ← hT, ih (fun x hx => hh x (List.mem_cons_of_mem _ hx))]

/-! ### Lines that never classify as headers -/

theorem dropWhile_append_neg {α : Type} (p : α → Bool) (a : List α) (x : α) (b : List α)
    (hx : p x = false) :
    (a ++ x :: b).dropWhile p = a.dropWhile p ++ x :: b := by
  induction a with
  | nil =>
    rw [List.nil_append, List.dropWhile_cons, if_neg (by rw [hx]; exact Bool.false_ne_true)]
    rfl
  | cons y t ih =>
    rw [List.cons_append, List.dropWhile_cons, List.dropWhile_cons]
    split
    · exact ih
    · rw [List.cons_append]

theorem trimChars_cons_nonws (c : Char) (t : List Char) (hc : c.isWhitespace = false) :
    trimChars (c :: t) = c :: (t.reverse.dropWhile Char.isWhitespace).reverse := by
  unfold trimChars
  rw [List.dropWhile_cons, if_neg (by rw [hc]; exact Bool.false_ne_true), List.reverse_cons,
    dropWhile_append_neg Char.isWhitespace t.reverse c [] hc, List.reverse_append]
  rfl

theorem classify_none_of_shape (hdr l : String) (hne : trimS l ≠ trimS hdr)
    (hhd : l.data.takeWhile (fun c => c == '#') = []) : classify hdr l = none := by
  have h1 : (trimS l == trimS hdr) = false := beq_eq_false_iff_ne.mpr hne
  have h2 : isGenericUnreleased l.data = false := by
    unfold isGenericUnreleased
    simp only [hhd, List.length_nil]
    rw [if_neg (by omega)]
  have h3 : parseVersionHeaderLine l = none := by
    unfold parseVersionHeaderLine
    simp only [hhd, List.length_nil]
    rw [if_pos (Or.inl trivial)]
  have h4 : isUnreleasedLine hdr l = false := by
    unfold isUnreleasedLine
    rw [h1, h2]
    rfl
  unfold classify
  rw [h4, if_neg Bool.false_ne_true, h3]

theorem all_ws_of_blank (l : String) (hl : isBlankS l = true) :
    ∀ c ∈ l.data, c.isWhitespace = true := by
  intro c hc
  exact List.all_eq_true.mp hl c hc

theorem classify_blank_none (hdr l : String) (hh : hdrOK hdr) (hl : isBlankS l = true) :
    classify hdr l = none := by
  apply classify_none_of_shape
  · intro heq
    have htr : trimChars l.data = [] := by
      unfold trimChars
      rw [List.dropWhile_eq_nil_iff.mpr (all_ws_of_blank l hl)]
      rfl
    have hhd := hh.1
    rw [← heq] at hhd
    rw [show (trimS l).data = trimChars l.data from rfl, htr] at hhd
    exact Option.noConfusion hhd
  · cases hd : l.data with
    | nil => rfl
    | cons c t =>
      have hcw : c.isWhitespace = true := all_ws_of_blank l hl c (by rw [hd]; exact List.mem_cons_self _ _)
      have hch : (c == '#') = false := by
        apply beq_eq_false_iff_ne.mpr
        intro hcc
        rw [hcc] at hcw
        exact absurd hcw (by decide)
      rw [List.takeWhile_cons, if_neg (by rw [hch]; exact Bool.false_ne_true)]

theorem classify_empty_none (hdr : String) (hh : hdrOK hdr) : classify hdr "" = none :=
  classify_blank_none hdr "" hh rfl

theorem classify_head_none (hdr l : String) (hh : hdrOK hdr) (c : Char) (t : List Char)
    (hl : l.data = c :: t) (hcw : c.isWhitespace = false) (hch : c ≠ '#') :
    classify hdr l = none := by
  apply classify_none_of_shape
  · intro heq
    have hhd := hh.1
    rw [← heq] at hhd
    rw [show (trimS l).data = trimChars l.data from rfl, hl, trimChars_cons_nonws c t hcw] at hhd
    have : c = '#' := by
      have := Option.some.inj hhd
      exact this
    exact hch this
  · rw [hl, List.takeWhile_cons,
      if_neg (by rw [beq_eq_false_iff_ne.mpr hch]; exact Bool.false_ne_true)]

/-! ### Formatted entries are dash-headed content lines -/

theorem data_head_append (a b : String) (c : Char) (h : ∃ t, a.data = c :: t) :
    ∃ t, (a ++ b).data = c :: t := by
  obtain ⟨t, ht⟩ := h
  exact ⟨t ++ b.data, by rw [String.data_append, ht, List.cons_append]⟩

theorem fmt_head (e : CommitEntry) : ∃ t, (formatCommitEntry e).data = '-' :: t := by
  unfold formatCommitEntry
  dsimp only
  have base : ∃ t, ("- " ++ e.message).data = '-' :: t := ⟨' ' :: e.message.data, rfl⟩
  cases e.prNumber with
  | some n =>
    cases e.repoUrl with
    | some url =>
      exact data_head_append _ _ _ (data_head_append _ _ _ (data_head_append _ _ _
        (data_head_append _ _ _ base)))
    | none =>
      exact data_head_append _ _ _ (data_head_append _ _ _ (data_head_append _ _ _
        (data_head_append _ _ _ base)))
  | none =>
    cases e.commitSha with
    | some sha =>
      cases e.repoUrl with
      | some url =>
        exact data_head_append _ _ _ (data_head_append _ _ _ (data_head_append _ _ _
          (data_head_append _ _ _ base)))
      | none => exact data_head_append _ _ _ (data_head_append _ _ _ base)
    | none =>
      cases e.repoUrl with
      | some url => exact data_head_append _ _ _ (data_head_append _ _ _ base)
      | none => exact data_head_append _ _ _ (data_head_append _ _ _ base)

theorem isBlankS_head_false (l : String) (c : Char) (t : List Char)
    (hl : l.data = c :: t) (hc : c.isWhitespace = false) : isBlankS l = false := by
  unfold isBlankS
  rw [hl, List.all_cons, hc, Bool.false_and]

theorem fmt_nonblank (e : CommitEntry) : isBlankS (formatCommitEntry e) = false := by
  obtain ⟨t, ht⟩ := fmt_head e
  exact isBlankS_head_false _ '-' t ht (by decide)

theorem classify_fmt_none (hdr : String) (hh : hdrOK hdr) (e : CommitEntry) :
    classify hdr (formatCommitEntry e) = none := by
  obtain ⟨t, ht⟩ := fmt_head e
  exact classify_head_none hdr _ hh '-' t ht (by decide) (by decide)

/-! ### Parsing the rendered section area -/

theorem parseSecsAux_skip (hdr h : String) (k : SecKind) (acc body rest : List String)
    (hb : ∀ l ∈ body, classify hdr l = none) :
    parseSecsAux hdr h k acc (body ++ rest) = parseSecsAux hdr h k (acc ++ body) rest := by
  revert hb
  induction body generalizing acc with
  | nil =>
    intro hb
    rw [List.nil_append, List.append_nil]
  | cons x t ih =>
    intro hb
    rw [List.cons_append]
    show (match classify hdr x with
      | none => parseSecsAux hdr h k (acc ++ [x]) (t ++ rest)
      | some k2 => mkSection h k acc :: parseSecsAux hdr x k2 [] (t ++ rest)) = _
    rw [hb x (List.mem_cons_self _ _)]
    show parseSecsAux hdr h k (acc ++ [x]) (t ++ rest) = parseSecsAux hdr h k (acc ++ x :: t) rest
    rw [ih (acc ++ [x]) (fun l hl => hb l (List.mem_cons_of_mem _ hl)), List.append_assoc]
    rfl

theorem parseSecsAux_header2 (hdr h : String) (k : SecKind) (acc : List String) (l : String)
    (k2 : SecKind) (hl : classify hdr l = some k2) (rest : List String) :
    parseSecsAux hdr h k acc (l :: rest)
      = mkSection h k acc :: parseSecsAux hdr l k2 [] rest := by
  show (match classify hdr l with
    | none => parseSecsAux hdr h k (acc ++ [l]) rest
    | some k3 => mkSection h k acc :: parseSecsAux hdr l k3 [] rest) = _
  rw [hl]

theorem parseSecs_header (hdr : String) (l : String) (k : SecKind)
    (hl : classify hdr l = some k) (rest : List String) :
    parseSecs hdr (l :: rest) = parseSecsAux hdr l k [] rest := by
  show (match classify hdr l with
    | none => parseSecs hdr rest
    | some k2 => parseSecsAux hdr l k2 [] rest) = _
  rw [hl]

theorem mem_chunk_cases (R : List String) (l : String)
    (hl : l ∈ collapse ("" :: (R ++ [""]))) : l = "" ∨ l ∈ R := by
  rcases mem_collapse_cases _ l hl with h | h
  · exact Or.inl h
  · rcases List.mem_cons.mp h with h2 | h2
    · exact Or.inl h2
    · rcases List.mem_append.mp h2 with h3 | h3
      · exact Or.inr h3
      · exact Or.inl (List.mem_singleton.mp h3)

theorem chunk_all_none (hdr : String) (hh : hdrOK hdr) (R : List String)
    (hR : ∀ l ∈ R, classify hdr l = none) :
    ∀ l ∈ collapse ("" :: (R ++ [""])), classify hdr l = none := by
  intro l hl
  rcases mem_chunk_cases R l hl with h | h
  · rw [h]
    exact classify_empty_none hdr hh
  · exact hR l h

theorem chunk_last_all_none (hdr : String) (hh : hdrOK hdr) (R : List String)
    (hR : ∀ l ∈ R, classify hdr l = none) :
    ∀ l ∈ dropTrailBlanks (collapse ("" :: R)) ++ [""], classify hdr l = none := by
  intro l hl
  rcases List.mem_append.mp hl with h | h
  · have h2 : l ∈ collapse ("" :: R) := (dropTrailBlanks_pre _).subset h
    rcases mem_collapse_cases _ l h2 with h3 | h3
    · rw [h3]
      exact classify_empty_none hdr hh
    · rcases List.mem_cons.mp h3 with h4 | h4
      · rw [h4]
        exact classify_empty_none hdr hh
      · exact hR l h4
  · rw [List.mem_singleton.mp h]
    exact classify_empty_none hdr hh

theorem mkSection_chunk_mid (h : String) (k : SecKind) (raw : String) :
    mkSection h k (collapse ("" :: (toLines raw ++ [""])))
      = { header := h, kind := k, rawContent := normRaw raw } := by
  unfold mkSection
  rw [trim_chunk_mid]
  rfl

theorem mkSection_chunk_last (h : String) (k : SecKind) (raw : String) :
    mkSection h k (dropTrailBlanks (collapse ("" :: toLines raw)) ++ [""])
      = { header := h, kind := k, rawContent := normRaw raw } := by
  unfold mkSection
  rw [trim_chunk_last]
  rfl

theorem parseSecsAux_final (hdr h : String) (k : SecKind) (acc body : List String)
    (hb : ∀ l ∈ body, classify hdr l = none) :
    parseSecsAux hdr h k acc body = [mkSection h k (acc ++ body)] := by
  have h1 := parseSecsAux_skip hdr h k acc body [] hb
  rw [List.append_nil] at h1
  rw [h1]
  rfl

theorem dropTrail_renderChunks_ne_nil (hdr : String) (s2 : Section) (rest2 : List Section)
    (h2 : isBlankS s2.header = false) :
    dropTrailBlanks (renderChunks (s2 :: rest2)) ≠ [] := by
  obtain ⟨T, hT⟩ := renderChunks_head s2 rest2
  exact dropTrailBlanks_ne_nil _ s2.header (hT ▸ List.mem_cons_self _ _) h2

theorem aux_chunks (hdr : String) (hh : hdrOK hdr) (ss : List Section) (hne : ss ≠ [])
    (hok : ∀ s ∈ ss, sectionOK hdr s) :
    ∀ (h : String) (k : SecKind) (acc : List String),
    parseSecsAux hdr h k acc (dropTrailBlanks (renderChunks ss) ++ [""])
      = mkSection h k acc :: ss.map normSec := by
  induction ss with
  | nil => exact absurd rfl hne
  | cons s rest ih =>
    intro h k acc
    have hsOK := hok s (List.mem_cons_self _ _)
    cases rest with
    | nil =>
      show parseSecsAux hdr h k acc
          (dropTrailBlanks (s.header :: collapse ("" :: toLines s.rawContent)) ++ [""]) = _
      rw [dropTrailBlanks_cons_of_nonblank _ _ hsOK.2.1, List.cons_append,
        parseSecsAux_header2 hdr h k acc s.header s.kind hsOK.1,
        parseSecsAux_final hdr s.header s.kind []
          (dropTrailBlanks (collapse ("" :: toLines s.rawContent)) ++ [""])
          (chunk_last_all_none hdr hh _ hsOK.2.2.2.2.2),
        List.nil_append, mkSection_chunk_last]
      rfl
    | cons s2 rest2 =>
      have hs2OK := hok s2 (List.mem_cons_of_mem _ (List.mem_cons_self _ _))
      show parseSecsAux hdr h k acc
          (dropTrailBlanks ((s.header :: collapse ("" :: (toLines s.rawContent ++ [""])))
            ++ renderChunks (s2 :: rest2)) ++ [""]) = _
      rw [dropTrailBlanks_append_right _ _
          (dropTrail_renderChunks_ne_nil hdr s2 rest2 hs2OK.2.1),
        List.cons_append, List.cons_append,
        parseSecsAux_header2 hdr h k acc s.header s.kind hsOK.1,
        List.append_assoc,
        parseSecsAux_skip hdr s.header s.kind [] _ _
          (chunk_all_none hdr hh _ hsOK.2.2.2.2.2),
        List.nil_append,
        ih (List.cons_ne_nil _ _) (fun x hx => hok x (List.mem_cons_of_mem _ hx))
          s.header s.kind _,
        mkSection_chunk_mid]
      rfl

theorem secs_parse (hdr : String) (hh : hdrOK hdr) (ss : List Section) (hne : ss ≠ [])
    (hok : ∀ s ∈ ss, sectionOK hdr s) :
    parseSecs hdr (dropTrailBlanks (renderChunks ss) ++ [""]) = ss.map normSec := by
  cases ss with
  | nil => exact absurd rfl hne
  | cons s rest =>
    have hsOK := hok s (List.mem_cons_self _ _)
    cases rest with
    | nil =>
      show parseSecs hdr
          (dropTrailBlanks (s.header :: collapse ("" :: toLines s.rawContent)) ++ [""]) = _
      rw [dropTrailBlanks_cons_of_nonblank _ _ hsOK.2.1, List.cons_append,
        parseSecs_header hdr s.header s.kind hsOK.1,
        parseSecsAux_final hdr s.header s.kind []
          (dropTrailBlanks (collapse ("" :: toLines s.rawContent)) ++ [""])
          (chunk_last_all_none hdr hh _ hsOK.2.2.2.2.2),
        List.nil_append, mkSection_chunk_last]
      rfl
    | cons s2 rest2 =>
      have hs2OK := hok s2 (List.mem_cons_of_mem _ (List.mem_cons_self _ _))
      show parseSecs hdr
          (dropTrailBlanks ((s.header :: collapse ("" :: (toLines s.rawContent ++ [""])))
            ++ renderChunks (s2 :: rest2)) ++ [""]) = _
      rw [dropTrailBlanks_append_right _ _
          (dropTrail_renderChunks_ne_nil hdr s2 rest2 hs2OK.2.1),
        List.cons_append, List.cons_append,
        parseSecs_header hdr s.header s.kind hsOK.1,
        List.append_assoc,
        parseSecsAux_skip hdr s.header s.kind [] _ _
          (chunk_all_none hdr hh _ hsOK.2.2.2.2.2),
        List.nil_append,
        aux_chunks hdr hh (s2 :: rest2) (List.cons_ne_nil _ _)
          (fun x hx => hok x (List.mem_cons_of_mem _ hx)) s.header s.kind _,
        mkSection_chunk_mid]
      rfl

/-! ### The serialize-reparse roundtrip -/

theorem parse_render (hdr : String) (d : Document) (hh : hdrOK hdr) (hd : docOK hdr d)
    (hne : d.sections ≠ []) :
    parseDoc hdr (render d) =
      { preambleLines := (collapse (d.preambleLines ++ [""])).dropWhile isBlankS
        sections := d.sections.map normSec } := by
  obtain ⟨s1, rest, hss⟩ : ∃ s1 rest, d.sections = s1 :: rest := by
    cases h : d.sections with
    | nil => exact absurd h hne
    | cons a b => exact ⟨a, b, rfl⟩
  have hpreclean : ∀ l ∈ d.preambleLines, '\n' ∉ l.data ∧ '\r' ∉ l.data :=
    fun l hl => ⟨(hd.1 l hl).2.1, (hd.1 l hl).2.2⟩
  have hpre : d.preambleLines.flatMap toLines = d.preambleLines :=
    flatMap_toLines_id _ hpreclean
  have hsingle : ∀ s ∈ d.sections, toLines s.header = [s.header] := fun s hs =>
    toLines_single _ (hd.2 s hs).2.2.1 (hd.2 s hs).2.2.2.1
  have hnonb : ∀ s ∈ d.sections, isBlankS s.header = false := fun s hs => (hd.2 s hs).2.1
  have hstruct : structuredLines d = (d.preambleLines ++ [""]) ++ chunksFrom d.sections := by
    unfold structuredLines
    rw [hpre, flatMap_secChunk_eq _ hne hsingle, List.append_assoc]
    rfl
  obtain ⟨T, hT0⟩ := chunksFrom_head s1 rest
  have hT : chunksFrom d.sections = s1.header :: T := by rw [hss]; exact hT0
  have hs1nb : isBlankS s1.header = false := hnonb s1 (hss ▸ List.mem_cons_self _ _)
  have hs1OK : sectionOK hdr s1 := hd.2 s1 (hss ▸ List.mem_cons_self _ _)
  have hcoll : collapse (structuredLines d)
      = collapse (d.preambleLines ++ [""]) ++ renderChunks d.sections := by
    rw [hstruct, hT, collapse_append_nonblank _ _ _ hs1nb, ← hT,
      collapse_chunksFrom _ hnonb]
  obtain ⟨T2, hT20⟩ := renderChunks_head s1 rest
  have hT2 : renderChunks d.sections = s1.header :: T2 := by rw [hss]; exact hT20
  have hdtail : dropTrailBlanks (renderChunks d.sections)
      = s1.header :: dropTrailBlanks T2 := by
    rw [hT2, dropTrailBlanks_cons_of_nonblank _ _ hs1nb]
  have hL : squeezeTrim (structuredLines d)
      = (collapse (d.preambleLines ++ [""])).dropWhile isBlankS
        ++ s1.header :: dropTrailBlanks T2 := by
    unfold squeezeTrim
    rw [hcoll,
      dropTrailBlanks_append_right _ _
        (by rw [hdtail]; exact List.cons_ne_nil _ _),
      hdtail, dropWhileBlank_append_nonblank _ _ _ hs1nb]
  have hLmem : ∀ l ∈ squeezeTrim (structuredLines d), '\n' ∉ l.data ∧ '\r' ∉ l.data := by
    intro l hl
    rcases mem_squeezeTrim_cases _ l hl with h | h
    · rw [h]
      exact ⟨by simp, by simp⟩
    · exact mem_structuredLines_clean d l h
  have hLne : squeezeTrim (structuredLines d) ≠ [] := by
    intro hcontra
    rw [hL] at hcontra
    rcases List.append_eq_nil.mp hcontra with ⟨_, h2⟩
    exact List.cons_ne_nil _ _ h2
  obtain ⟨y, ys, hys⟩ : ∃ y ys, squeezeTrim (structuredLines d) = y :: ys := by
    cases hq : squeezeTrim (structuredLines d) with
    | nil => exact absurd hq hLne
    | cons a b => exact ⟨a, b, rfl⟩
  have hrender : render d = unlines (squeezeTrim (structuredLines d)) ++ "\n" := by
    unfold render
    rw [hys]
  have hlines : toLines (render d) = squeezeTrim (structuredLines d) ++ [""] := by
    rw [hrender]
    exact toLines_unlines_nl _ hLne hLmem
  have hP'none : ∀ l ∈ (collapse (d.preambleLines ++ [""])).dropWhile isBlankS,
      classify hdr l = none := by
    intro l hl
    have h2 : l ∈ collapse (d.preambleLines ++ [""]) := (List.dropWhile_suffix isBlankS).mem hl
    rcases mem_collapse_cases _ l h2 with h3 | h3
    · rw [h3]
      exact classify_empty_none hdr hh
    · rcases List.mem_append.mp h3 with h4 | h4
      · exact (hd.1 l h4).1
      · rw [List.mem_singleton.mp h4]
        exact classify_empty_none hdr hh
  have hfull : toLines (render d)
      = (collapse (d.preambleLines ++ [""])).dropWhile isBlankS
        ++ s1.header :: (dropTrailBlanks T2 ++ [""]) := by
    rw [hlines, hL, List.append_assoc]
    rfl
  have htake := takeWhile_append_stop (fun l => !(isHeaderLine hdr l))
      ((collapse (d.preambleLines ++ [""])).dropWhile isBlankS) s1.header
      (dropTrailBlanks T2 ++ [""])
      (fun y hy => by
        show (!isHeaderLine hdr y) = true
        unfold isHeaderLine
        rw [hP'none y hy]
        rfl)
      (by
        show (!isHeaderLine hdr s1.header) = false
        unfold isHeaderLine
        rw [hs1OK.1]
        rfl)
  have hback : s1.header :: (dropTrailBlanks T2 ++ [""])
      = dropTrailBlanks (renderChunks d.sections) ++ [""] := by
    rw [hdtail]
    rfl
  show { preambleLines := (toLines (render d)).takeWhile (fun l => !(isHeaderLine hdr l))
         sections := parseSecs hdr ((toLines (render d)).dropWhile (fun l => !(isHeaderLine hdr l))) }
    = ({ preambleLines := (collapse (d.preambleLines ++ [""])).dropWhile isBlankS
         sections := d.sections.map normSec } : Document)
  rw [hfull, htake.1, htake.2, hback, secs_parse hdr hh d.sections hne hd.2]

/-! ### Every parsed document is well-formed -/

theorem mkSection_OK (hdr h : String) (k : SecKind) (hh : hdrOK hdr)
    (hhk : classify hdr h = some k) (hclean : '\n' ∉ h.data ∧ '\r' ∉ h.data)
    (body : List String)
    (hbody : ∀ l ∈ body, classify hdr l = none ∧ '\n' ∉ l.data ∧ '\r' ∉ l.data) :
    sectionOK hdr (mkSection h k body) := by
  have hsub : ∀ l ∈ trimBlankEdges body, l ∈ body := by
    intro l hl
    unfold trimBlankEdges at hl
    exact (List.dropWhile_suffix isBlankS).subset ((dropTrailBlanks_pre _).subset hl)
  have hnb : isBlankS h = false := by
    cases hb : isBlankS h
    · rfl
    · rw [classify_blank_none hdr h hh hb] at hhk
      exact Option.noConfusion hhk
  refine ⟨hhk, hnb, hclean.1, hclean.2, ?_, ?_⟩
  · show '\r' ∉ (unlines (trimBlankEdges body)).data
    unfold unlines
    show '\r' ∉ joinNl ((trimBlankEdges body).map String.data)
    apply joinNl_no_cr
    intro x hx
    rcases List.mem_map.mp hx with ⟨y, hy, hxy⟩
    subst hxy
    exact (hbody y (hsub y hy)).2.2
  · intro l hl
    cases hte : trimBlankEdges body with
    | nil =>
      rw [show (mkSection h k body).rawContent = unlines (trimBlankEdges body) from rfl,
        hte] at hl
      rw [show unlines ([] : List String) = "" from rfl] at hl
      rw [show toLines "" = [""] from rfl] at hl
      rw [List.mem_singleton.mp hl]
      exact classify_empty_none hdr hh
    | cons x r =>
      rw [show (mkSection h k body).rawContent = unlines (trimBlankEdges body) from rfl,
        toLines_unlines _ (by rw [hte]; exact List.cons_ne_nil _ _)
          (fun y hy => ⟨(hbody y (hsub y hy)).2.1, (hbody y (hsub y hy)).2.2⟩)] at hl
      exact (hbody l (hsub l hl)).1

theorem parseSecsAux_OK (hdr : String) (hh : hdrOK hdr) (ls : List String) :
    ∀ (h : String) (k : SecKind) (acc : List String),
    classify hdr h = some k → ('\n' ∉ h.data ∧ '\r' ∉ h.data) →
    (∀ l ∈ acc, classify hdr l = none ∧ '\n' ∉ l.data ∧ '\r' ∉ l.data) →
    (∀ l ∈ ls, '\n' ∉ l.data ∧ '\r' ∉ l.data) →
    ∀ s ∈ parseSecsAux hdr h k acc ls, sectionOK hdr s := by
  induction ls with
  | nil =>
    intro h k acc hhk hclean hacc _ s hs
    rw [show parseSecsAux hdr h k acc [] = [mkSection h k acc] from rfl] at hs
    rw [List.mem_singleton.mp hs]
    exact mkSection_OK hdr h k hh hhk hclean acc hacc
  | cons l rest ih =>
    intro h k acc hhk hclean hacc hls s hs
    cases hcl : classify hdr l with
    | none =>
      have heq : parseSecsAux hdr h k acc (l :: rest)
          = parseSecsAux hdr h k (acc ++ [l]) rest := by
        show (match classify hdr l with
          | none => parseSecsAux hdr h k (acc ++ [l]) rest
          | some k2 => mkSection h k acc :: parseSecsAux hdr l k2 [] rest) = _
        rw [hcl]
      rw [heq] at hs
      refine ih h k (acc ++ [l]) hhk hclean ?_
        (fun x hx => hls x (List.mem_cons_of_mem _ hx)) s hs
      intro x hx
      rcases List.mem_append.mp hx with h1 | h1
      · exact hacc x h1
      · rw [List.mem_singleton.mp h1]
        exact ⟨hcl, hls l (List.mem_cons_self _ _)⟩
    | some k2 =>
      rw [parseSecsAux_header2 hdr h k acc l k2 hcl] at hs
      rcases List.mem_cons.mp hs with h1 | h1
      · rw [h1]
        exact mkSection_OK hdr h k hh hhk hclean acc hacc
      · exact ih l k2 [] hcl (hls l (List.mem_cons_self _ _))
          (fun x hx => absurd hx (List.not_mem_nil x))
          (fun x hx => hls x (List.mem_cons_of_mem _ hx)) s h1

theorem parseSecs_OK (hdr : String) (hh : hdrOK hdr) (ls : List String)
    (hls : ∀ l ∈ ls, '\n' ∉ l.data ∧ '\r' ∉ l.data) :
    ∀ s ∈ parseSecs hdr ls, sectionOK hdr s := by
  induction ls with
  | nil => intro s hs; exact absurd hs (List.not_mem_nil s)
  | cons l rest ih =>
    intro s hs
    cases hcl : classify hdr l with
    | none =>
      have heq : parseSecs hdr (l :: rest) = parseSecs hdr rest := by
        show (match classify hdr l with
          | none => parseSecs hdr rest
          | some k => parseSecsAux hdr l k [] rest) = _
        rw [hcl]
      rw [heq] at hs
      exact ih (fun x hx => hls x (List.mem_cons_of_mem _ hx)) s hs
    | some k =>
      rw [parseSecs_header hdr l k hcl] at hs
      exact parseSecsAux_OK hdr hh rest l k [] hcl (hls l (List.mem_cons_self _ _))
        (fun x hx => absurd hx (List.not_mem_nil x))
        (fun x hx => hls x (List.mem_cons_of_mem _ hx)) s hs

theorem isHeaderLine_false_classify (hdr l : String) (h : isHeaderLine hdr l = false) :
    classify hdr l = none := by
  unfold isHeaderLine at h
  cases hc : classify hdr l
  · rfl
  · rw [hc] at h
    exact absurd h (by simp)

theorem parse_wf (hdr c : String) (hh : hdrOK hdr) : docOK hdr (parseDoc hdr c) := by
  constructor
  · intro l hl
    have hl2 : l ∈ toLines c := by
      have : (toLines c).takeWhile (fun l => !(isHeaderLine hdr l)) <+: toLines c :=
        List.takeWhile_prefix _
      exact this.subset hl
    have hcln := mem_toLines_clean c l hl2
    refine ⟨?_, hcln.1, hcln.2⟩
    have hp := List.mem_takeWhile_imp hl
    apply isHeaderLine_false_classify
    cases hih : isHeaderLine hdr l
    · rfl
    · rw [hih] at hp
      exact absurd hp (by decide)
  · intro s hs
    exact parseSecs_OK hdr hh _
      (fun x hx => mem_toLines_clean c x
        ((List.dropWhile_suffix (fun l => !(isHeaderLine hdr l))).subset hx)) s hs

/-! ### Scanning lemmas for the version recognizer -/

theorem segTail_digit (c : Char) (rest : List Char) (hc : c.isDigit = true) :
    segTail (c :: rest) = (c :: (segTail rest).1, (segTail rest).2) := by
  cases rest with
  | nil =>
    show (if c.isDigit = true then (c :: (segTail []).1, (segTail []).2)
      else if c = '.' then ([], [c]) else ([], [c])) = (c :: (segTail []).1, (segTail []).2)
    rw [if_pos hc]
  | cons d rest2 =>
    show (if c.isDigit = true then (c :: (segTail (d :: rest2)).1, (segTail (d :: rest2)).2)
      else if c = '.' then
        (if d.isDigit = true then (c :: d :: (segTail rest2).1, (segTail rest2).2)
         else ([], c :: d :: rest2))
      else ([], c :: d :: rest2))
      = (c :: (segTail (d :: rest2)).1, (segTail (d :: rest2)).2)
    rw [if_pos hc]

theorem segTail_dot_digit (d : Char) (rest2 : List Char) (hd : d.isDigit = true) :
    segTail ('.' :: d :: rest2) = ('.' :: d :: (segTail rest2).1, (segTail rest2).2) := by
  show (if ('.' : Char).isDigit = true
      then ('.' :: (segTail (d :: rest2)).1, (segTail (d :: rest2)).2)
    else if ('.' : Char) = '.' then
      (if d.isDigit = true then ('.' :: d :: (segTail rest2).1, (segTail rest2).2)
       else ([], '.' :: d :: rest2))
    else ([], '.' :: d :: rest2)) = ('.' :: d :: (segTail rest2).1, (segTail rest2).2)
  rw [if_neg (by decide), if_pos rfl, if_pos hd]

theorem segTail_dot_nondigit (d : Char) (rest2 : List Char) (hd : ¬d.isDigit = true) :
    segTail ('.' :: d :: rest2) = ([], '.' :: d :: rest2) := by
  show (if ('.' : Char).isDigit = true
      then ('.' :: (segTail (d :: rest2)).1, (segTail (d :: rest2)).2)
    else if ('.' : Char) = '.' then
      (if d.isDigit = true then ('.' :: d :: (segTail rest2).1, (segTail rest2).2)
       else ([], '.' :: d :: rest2))
    else ([], '.' :: d :: rest2)) = ([], '.' :: d :: rest2)
  rw [if_neg (by decide), if_pos rfl, if_neg hd]

theorem segTail_stop (c : Char) (rest : List Char) (hc : ¬c.isDigit = true) (hne : c ≠ '.') :
    segTail (c :: rest) = ([], c :: rest) := by
  cases rest with
  | nil =>
    show (if c.isDigit = true then (c :: (segTail []).1, (segTail []).2)
      else if c = '.' then ([], [c]) else ([], [c])) = ([], [c])
    rw [if_neg hc, if_neg hne]
  | cons d rest2 =>
    show (if c.isDigit = true then (c :: (segTail (d :: rest2)).1, (segTail (d :: rest2)).2)
      else if c = '.' then
        (if d.isDigit = true then (c :: d :: (segTail rest2).1, (segTail rest2).2)
         else ([], c :: d :: rest2))
      else ([], c :: d :: rest2))
      = ([], c :: d :: rest2)
    rw [if_neg hc, if_neg hne]

theorem segTail_ext_end (cs : List Char) : ∀ (a : List Char), segTail cs = (a, []) →
    ∀ (c0 : Char) (sfx : List Char), c0.isDigit = false → c0 ≠ '.' →
    segTail (cs ++ c0 :: sfx) = (a, c0 :: sfx) := by
  induction cs using segTail.induct with
  | case1 =>
    intro a h c0 sfx h0 h1
    have h2 := h.symm
    injection h2 with ha hb
    rw [List.nil_append, segTail_stop c0 sfx (by rw [h0]; exact Bool.false_ne_true) h1, ha]
  | case2 d rest2 hdig ih =>
    intro a h c0 sfx h0 h1
    rw [segTail_digit d rest2 hdig] at h
    injection h with h2 h3
    have hr : segTail rest2 = ((segTail rest2).1, []) := by
      rw [← h3]
    rw [List.cons_append, segTail_digit d _ hdig, ih _ hr c0 sfx h0 h1, ← h2]
  | case3 =>
    intro a h c0 sfx h0 h1
    rw [show segTail ['.'] = ([], ['.']) from rfl] at h
    injection h with h2 h3
    exact absurd h3 (by simp)
  | case4 d rest2 hdig hdot ih =>
    intro a h c0 sfx h0 h1
    rw [segTail_dot_digit d rest2 hdig] at h
    injection h with h2 h3
    have hr : segTail rest2 = ((segTail rest2).1, []) := by
      rw [← h3]
    rw [List.cons_append, List.cons_append, segTail_dot_digit d _ hdig,
      ih _ hr c0 sfx h0 h1, ← h2]
  | case5 d rest2 hnd hdot =>
    intro a h c0 sfx h0 h1
    rw [segTail_dot_nondigit d rest2 hnd] at h
    injection h with h2 h3
    exact absurd h3 (by simp)
  | case6 d rest2 hnd hne =>
    intro a h c0 sfx h0 h1
    rw [segTail_stop d rest2 hnd hne] at h
    injection h with h2 h3
    exact absurd h3 (by simp)

theorem segTail_ext_mid (cs : List Char) : ∀ (a : List Char) (x : Char) (r : List Char),
    segTail cs = (a, x :: r) → x.isDigit = false → x ≠ '.' →
    ∀ (sfx : List Char), segTail (cs ++ sfx) = (a, x :: (r ++ sfx)) := by
  induction cs using segTail.induct with
  | case1 =>
    intro a x r h hx0 hx1 sfx
    have h2 := h.symm
    injection h2 with ha hb
    exact absurd hb (by simp)
  | case2 d rest2 hdig ih =>
    intro a x r h hx0 hx1 sfx
    rw [segTail_digit d rest2 hdig] at h
    injection h with h2 h3
    have hr : segTail rest2 = ((segTail rest2).1, x :: r) := by
      rw [← h3]
    rw [List.cons_append, segTail_digit d _ hdig, ih _ x r hr hx0 hx1 sfx, ← h2]
  | case3 =>
    intro a x r h hx0 hx1 sfx
    rw [show segTail ['.'] = ([], ['.']) from rfl] at h
    injection h with h2 h3
    injection h3 with h4 h5
    exact absurd h4.symm hx1
  | case4 d rest2 hdig hdot ih =>
    intro a x r h hx0 hx1 sfx
    rw [segTail_dot_digit d rest2 hdig] at h
    injection h with h2 h3
    have hr : segTail rest2 = ((segTail rest2).1, x :: r) := by
      rw [← h3]
    rw [List.cons_append, List.cons_append, segTail_dot_digit d _ hdig,
      ih _ x r hr hx0 hx1 sfx, ← h2]
  | case5 d rest2 hnd hdot =>
    intro a x r h hx0 hx1 sfx
    rw [segTail_dot_nondigit d rest2 hnd] at h
    injection h with h2 h3
    injection h3 with h4 h5
    exact absurd h4.symm hx1
  | case6 d rest2 hnd hne =>
    intro a x r h hx0 hx1 sfx
    rw [segTail_stop d rest2 hnd hne] at h
    injection h with h2 h3
    injection h3 with h4 h5
    rw [List.cons_append, segTail_stop d (rest2 ++ sfx) hnd hne, ← h2, h4, h5]

theorem versionChars_nondigit (c : Char) (rest : List Char) (hc : ¬c.isDigit = true) :
    versionChars (c :: rest) = none := by
  unfold versionChars
  dsimp only
  rw [if_neg hc]

theorem versionChars_eval_end (c : Char) (rest p1 : List Char) (hc : c.isDigit = true)
    (hp : segTail rest = (p1, [])) : versionChars (c :: rest) = some (c :: p1, []) := by
  unfold versionChars
  dsimp only
  rw [if_pos hc, hp]

theorem versionChars_eval_other (c x : Char) (rest p1 r : List Char) (hc : c.isDigit = true)
    (hx : x ≠ '-') (hp : segTail rest = (p1, x :: r)) :
    versionChars (c :: rest) = some (c :: p1, x :: r) := by
  unfold versionChars
  dsimp only
  rw [if_pos hc, hp]
  dsimp only
  split
  · next t heq =>
    injection heq with h1 h2
    exact absurd h1 hx
  · rfl

theorem versionChars_eval_dash_gen (c : Char) (rest p1 t : List Char) (hc : c.isDigit = true)
    (hp : segTail rest = (p1, '-' :: t)) :
    versionChars (c :: rest)
      = (if (t.takeWhile isTagChar).isEmpty then some (c :: p1, '-' :: t)
         else some ((c :: p1) ++ '-' :: t.takeWhile isTagChar, t.dropWhile isTagChar)) := by
  unfold versionChars
  dsimp only
  rw [if_pos hc, hp]
  dsimp only
  split
  · next t1 heq =>
    injection heq with h1 h2
    subst h2
    rfl
  · next hno =>
    exact absurd rfl (by intro hx; exact hno t hx)

theorem bare_decomp (v : String) (hb : isBareVersion v = true) :
    ∃ c rest p1, v.data = c :: rest ∧ c.isDigit = true ∧
      ((segTail rest = (p1, []) ∧ c :: p1 = v.data) ∨
       (∃ t, segTail rest = (p1, '-' :: t) ∧ t ≠ [] ∧ (∀ y ∈ t, isTagChar y = true) ∧
         (c :: p1) ++ '-' :: t = v.data)) := by
  unfold isBareVersion at hb
  cases hv : versionChars v.data with
  | none =>
    rw [hv] at hb
    exact absurd hb (by simp)
  | some p =>
    rw [hv] at hb
    cases p with
    | mk p1x p2x =>
      rw [show (match some (p1x, p2x) with
          | some p => p.1 == v.data && p.2.isEmpty
          | none => false) = (p1x == v.data && p2x.isEmpty) from rfl] at hb
      rw [Bool.and_eq_true] at hb
      have hp1 : p1x = v.data := beq_iff_eq.mp hb.1
      have hp2 : p2x = [] := List.isEmpty_iff.mp hb.2
      rw [hp1, hp2] at hv
      cases hq : v.data with
      | nil =>
        rw [hq] at hv
        rw [show versionChars [] = none from rfl] at hv
        exact Option.noConfusion hv
      | cons c rest =>
        rw [hq] at hv
        by_cases hc : c.isDigit = true
        case neg =>
          rw [versionChars_nondigit c rest hc] at hv
          exact Option.noConfusion hv
        obtain ⟨q1, q2, hsp⟩ : ∃ q1 q2, segTail rest = (q1, q2) := ⟨_, _, rfl⟩
        cases q2 with
        | nil =>
          rw [versionChars_eval_end c rest q1 hc hsp] at hv
          injection hv with hv2
          injection hv2 with hva hvb
          exact ⟨c, rest, q1, rfl, hc, Or.inl ⟨hsp, hva⟩⟩
        | cons x r =>
          by_cases hx : x = '-'
          case neg =>
            rw [versionChars_eval_other c x rest q1 r hc hx hsp] at hv
            injection hv with hv2
            injection hv2 with hva hvb
            exact absurd hvb (by simp)
          subst hx
          rw [versionChars_eval_dash_gen c rest q1 r hc hsp] at hv
          by_cases hcond : (r.takeWhile isTagChar).isEmpty = true
          · rw [if_pos hcond] at hv
            injection hv with hv2
            injection hv2 with hva hvb
            exact absurd hvb (by simp)
          · rw [if_neg hcond] at hv
            injection hv with hv2
            injection hv2 with hva hvb
            have htagall : ∀ y ∈ r, isTagChar y = true := List.dropWhile_eq_nil_iff.mp hvb
            have htkself : r.takeWhile isTagChar = r := by
              have h5 := takeWhile_append_all isTagChar r [] htagall
              rw [List.append_nil, List.takeWhile_nil, List.append_nil] at h5
              exact h5
            have hrne : r ≠ [] := by
              intro hr
              rw [hr] at hcond
              exact hcond rfl
            refine ⟨c, rest, q1, rfl, hc, Or.inr ⟨r, hsp, hrne, htagall, ?_⟩⟩
            rw [htkself] at hva
            exact hva

theorem versionChars_ext (v : String) (hb : isBareVersion v = true)
    (c0 : Char) (sfx : List Char) (h0 : c0.isDigit = false) (h1 : c0 ≠ '.')
    (h2 : c0 ≠ '-') (h3 : isTagChar c0 = false) :
    versionChars (v.data ++ c0 :: sfx) = some (v.data, c0 :: sfx) := by
  obtain ⟨c, rest, p1, hq, hc, hcase⟩ := bare_decomp v hb
  rw [hq, List.cons_append]
  rcases hcase with ⟨hp, hseg⟩ | ⟨t, hp, htne, htag, hseg⟩
  · have hext := segTail_ext_end rest p1 hp c0 sfx h0 h1
    rw [versionChars_eval_other c c0 (rest ++ c0 :: sfx) p1 sfx hc h2 hext, hseg, hq]
  · have hext := segTail_ext_mid rest p1 '-' t hp (by decide) (by decide) (c0 :: sfx)
    have htk := takeWhile_append_stop isTagChar t c0 sfx htag h3
    rw [versionChars_eval_dash_gen c (rest ++ c0 :: sfx) p1 (t ++ c0 :: sfx) hc hext,
      htk.1, htk.2,
      show t.isEmpty = false from (by
        cases t with
        | nil => exact absurd rfl htne
        | cons a b => rfl),
      if_neg Bool.false_ne_true, hseg, hq]

theorem isDateYMD_chars (cs : List Char) (h : isDateYMD cs = true) :
    ∀ c ∈ cs, (c.isDigit = true ∨ c = '-') := by
  rcases cs with _ | ⟨a, _ | ⟨b, _ | ⟨c, _ | ⟨d, _ | ⟨h1, _ | ⟨e, _ | ⟨f, _ | ⟨h2, _ | ⟨g,
    _ | ⟨k, _ | ⟨z, rest⟩⟩⟩⟩⟩⟩⟩⟩⟩⟩⟩
  case nil => exact absurd h Bool.false_ne_true
  case cons.nil => exact absurd h Bool.false_ne_true
  case cons.cons.nil => exact absurd h Bool.false_ne_true
  case cons.cons.cons.nil => exact absurd h Bool.false_ne_true
  case cons.cons.cons.cons.nil => exact absurd h Bool.false_ne_true
  case cons.cons.cons.cons.cons.nil => exact absurd h Bool.false_ne_true
  case cons.cons.cons.cons.cons.cons.nil => exact absurd h Bool.false_ne_true
  case cons.cons.cons.cons.cons.cons.cons.nil => exact absurd h Bool.false_ne_true
  case cons.cons.cons.cons.cons.cons.cons.cons.nil => exact absurd h Bool.false_ne_true
  case cons.cons.cons.cons.cons.cons.cons.cons.cons.nil => exact absurd h Bool.false_ne_true
  case cons.cons.cons.cons.cons.cons.cons.cons.cons.cons.cons =>
    exact absurd h Bool.false_ne_true
  case cons.cons.cons.cons.cons.cons.cons.cons.cons.cons.nil =>
    intro x hx
    simp only [isDateYMD, Bool.and_eq_true, beq_iff_eq] at h
    simp only [List.mem_cons, List.not_mem_nil, or_false] at hx
    rcases hx with rfl | rfl | rfl | rfl | rfl | rfl | rfl | rfl | rfl | rfl <;> tauto

theorem synth_header_data (bare date : String) :
    ("## v" ++ bare ++ " (" ++ date ++ ")").data
      = '#' :: '#' :: ' ' :: 'v' :: (bare.data ++ ' ' :: '(' :: (date.data ++ [')'])) := by
  rw [String.data_append, String.data_append, String.data_append, String.data_append]
  show (((('#' :: '#' :: ' ' :: 'v' :: []) ++ bare.data) ++ (' ' :: '(' :: []))
      ++ date.data) ++ (')' :: []) = _
  simp [List.append_assoc]

theorem parseVersionHeaderLine_synth (bare date : String)
    (hb : isBareVersion bare = true) (hd : isDateYMD date.data = true) :
    parseVersionHeaderLine ("## v" ++ bare ++ " (" ++ date ++ ")") = some (bare, some date) := by
  have hdc := isDateYMD_chars date.data hd
  have htk := takeWhile_append_stop (fun c => !(c == ')')) date.data ')' []
    (fun y hy => by
      rcases hdc y hy with h1 | h1
      · show (!(y == ')')) = true
        have h2 : (y == ')') = false := by
          apply beq_eq_false_iff_ne.mpr
          intro hyy
          rw [hyy] at h1
          exact absurd h1 (by decide)
        rw [h2]
        rfl
      · rw [h1]
        rfl)
    (show (!((')' : Char) == ')')) = false from by decide)
  unfold parseVersionHeaderLine
  rw [synth_header_data]
  dsimp only
  rw [List.takeWhile_cons, if_pos (show (('#' : Char) == '#') = true from rfl),
    List.takeWhile_cons, if_pos (show (('#' : Char) == '#') = true from rfl),
    List.takeWhile_cons, if_neg (show ¬((' ' : Char) == '#') = true from by decide),
    List.dropWhile_cons, if_pos (show (('#' : Char) == '#') = true from rfl),
    List.dropWhile_cons, if_pos (show (('#' : Char) == '#') = true from rfl),
    List.dropWhile_cons, if_neg (show ¬((' ' : Char) == '#') = true from by decide)]
  rw [if_neg (show ¬(List.length ['#', '#'] = 0 ∨ 3 < List.length ['#', '#']) from by decide)]
  rw [List.dropWhile_cons, if_pos (show ((' ' : Char) == ' ') = true from rfl),
    List.dropWhile_cons, if_neg (show ¬(('v' : Char) == ' ') = true from by decide)]
  split
  · split
    · next heq2 =>
      split at heq2
      · next t heqv =>
        injection heqv with h3 h4
        subst h4
        rw [versionChars_ext bare hb ' ' ('(' :: (date.data ++ [')'])) (by decide) (by decide)
          (by decide) (by decide)] at heq2
        exact Option.noConfusion heq2
      · next hno => exact (hno _ rfl).elim
    · next v after heq2 =>
      split at heq2
      · next t heqv =>
        injection heqv with h3 h4
        subst h4
        rw [versionChars_ext bare hb ' ' ('(' :: (date.data ++ [')'])) (by decide) (by decide)
          (by decide) (by decide)] at heq2
        injection heq2 with heq3
        injection heq3 with hv hafter
        subst hv
        subst hafter
        rw [List.dropWhile_cons, if_pos (show ((' ' : Char) == ' ') = true from rfl),
          List.dropWhile_cons, if_neg (show ¬(('(' : Char) == ' ') = true from by decide)]
        split
        · next heq3b => exact List.noConfusion heq3b
        · next t2 heq3b =>
          injection heq3b with h5 h6
          subst h6
          rw [htk.2]
          split
          · next t3 heq4 =>
            injection heq4 with h7 h8
            subst h8
            rw [if_pos (show (([] : List Char).all Char.isWhitespace) = true from rfl),
              htk.1, if_pos hd]
          · next hno => exact (hno [] rfl).elim
        · next hno1 hno2 => exact (hno2 (date.data ++ [')']) rfl).elim
      · next hno => exact (hno _ rfl).elim
  · next hno => exact (hno _ rfl).elim

theorem trimChars_edge (c1 : Char) (mid : List Char) (c2 : Char)
    (hw1 : c1.isWhitespace = false) (hw2 : c2.isWhitespace = false) :
    trimChars (c1 :: (mid ++ [c2])) = c1 :: (mid ++ [c2]) := by
  unfold trimChars
  rw [List.dropWhile_cons, if_neg (by rw [hw1]; exact Bool.false_ne_true)]
  have hrev : (c1 :: (mid ++ [c2])).reverse = c2 :: (mid.reverse ++ [c1]) := by simp
  rw [hrev, List.dropWhile_cons, if_neg (by rw [hw2]; exact Bool.false_ne_true), ← hrev,
    List.reverse_reverse]

theorem trimS_synth (bare date : String) :
    trimS ("## v" ++ bare ++ " (" ++ date ++ ")") = "## v" ++ bare ++ " (" ++ date ++ ")" := by
  unfold trimS
  have h2 : ("## v" ++ bare ++ " (" ++ date ++ ")").data
      = '#' :: (('#' :: ' ' :: 'v' :: (bare.data ++ ' ' :: '(' :: date.data)) ++ [')']) := by
    rw [synth_header_data]
    simp
  rw [h2, trimChars_edge '#' _ ')' (by decide) (by decide), ← h2]

theorem isGenericUnreleased_synth (bare date : String) :
    isGenericUnreleased ("## v" ++ bare ++ " (" ++ date ++ ")").data = false := by
  unfold isGenericUnreleased
  rw [synth_header_data]
  dsimp only
  rw [List.takeWhile_cons, if_pos (show (('#' : Char) == '#') = true from rfl),
    List.takeWhile_cons, if_pos (show (('#' : Char) == '#') = true from rfl),
    List.takeWhile_cons, if_neg (show ¬((' ' : Char) == '#') = true from by decide),
    List.dropWhile_cons, if_pos (show (('#' : Char) == '#') = true from rfl),
    List.dropWhile_cons, if_pos (show (('#' : Char) == '#') = true from rfl),
    List.dropWhile_cons, if_neg (show ¬((' ' : Char) == '#') = true from by decide)]
  rw [if_pos (show 1 ≤ List.length ['#', '#'] ∧ List.length ['#', '#'] ≤ 3 from by decide)]
  split
  · rw [List.dropWhile_cons, if_pos (show ((' ' : Char) == ' ') = true from rfl),
      List.dropWhile_cons, if_neg (show ¬(('v' : Char) == ' ') = true from by decide)]
    unfold genericUnrelTail
    have hpre : unreleasedWord.isPrefixOf
        ('v' :: (bare.data ++ ' ' :: '(' :: (date.data ++ [')']))) = false := by
      apply bool_eq_false
      intro hp
      have h5 := List.isPrefixOf_iff_prefix.mp hp
      obtain ⟨t, ht⟩ := h5
      rw [show unreleasedWord = 'U' :: "nreleased".data from rfl, List.cons_append] at ht
      injection ht with h6 h7
      exact absurd h6 (by decide)
    rw [hpre, Bool.false_and, Bool.false_or]
    split
    · next t heq =>
      injection heq with h8 h9
      exact absurd h8 (by decide)
    · rfl
  · next hno => exact (hno _ rfl).elim

theorem classify_synth (hdr bare date : String) (hh : hdrOK hdr)
    (hb : isBareVersion bare = true) (hd : isDateYMD date.data = true) :
    classify hdr ("## v" ++ bare ++ " (" ++ date ++ ")")
      = some (SecKind.version bare (some date)) := by
  have hpv := parseVersionHeaderLine_synth bare date hb hd
  have h1 : (trimS ("## v" ++ bare ++ " (" ++ date ++ ")") == trimS hdr) = false := by
    apply beq_eq_false_iff_ne.mpr
    intro heq
    rw [trimS_synth] at heq
    have h2 := hh.2.1
    rw [← heq, hpv] at h2
    exact Option.noConfusion h2
  have h4 : isUnreleasedLine hdr ("## v" ++ bare ++ " (" ++ date ++ ")") = false := by
    unfold isUnreleasedLine
    rw [h1, isGenericUnreleased_synth]
    rfl
  unfold classify
  rw [h4, if_neg Bool.false_ne_true, hpv]

/-! ### Section-list facts for the mutation layer -/

theorem kind_of_isUnrelSec (s : Section) (h : isUnrelSec s = true) :
    s.kind = SecKind.unreleased := by
  unfold isUnrelSec at h
  cases hk : s.kind with
  | unreleased => rfl
  | version a b =>
    rw [hk] at h
    exact absurd h (by simp)

theorem removeFirstUnrel_subset (ss : List Section) (s : Section)
    (h : s ∈ removeFirstUnrel ss) : s ∈ ss := by
  induction ss with
  | nil => exact absurd h (List.not_mem_nil s)
  | cons a t ih =>
    unfold removeFirstUnrel at h
    by_cases ha : isUnrelSec a = true
    · rw [if_pos ha] at h
      exact List.mem_cons_of_mem _ h
    · rw [if_neg ha] at h
      rcases List.mem_cons.mp h with h1 | h1
      · rw [h1]
        exact List.mem_cons_self _ _
      · exact List.mem_cons_of_mem _ (ih h1)

theorem synth_mem (c : Char) (bare date : String)
    (h : c ∈ ("## v" ++ bare ++ " (" ++ date ++ ")").data) :
    c = '#' ∨ c = ' ' ∨ c = 'v' ∨ c = '(' ∨ c = ')' ∨ c ∈ bare.data ∨ c ∈ date.data := by
  rw [synth_header_data] at h
  simp only [List.mem_cons, List.mem_append, List.mem_singleton, List.not_mem_nil,
    or_false] at h
  tauto

theorem synth_header_clean (bare date : String)
    (hbc : '\n' ∉ bare.data ∧ '\r' ∉ bare.data) (hd : isDateYMD date.data = true) :
    '\n' ∉ ("## v" ++ bare ++ " (" ++ date ++ ")").data ∧
    '\r' ∉ ("## v" ++ bare ++ " (" ++ date ++ ")").data := by
  have hdc := isDateYMD_chars date.data hd
  constructor
  · intro hmem
    rcases synth_mem _ bare date hmem with h | h | h | h | h | h | h
    · exact absurd h (by decide)
    · exact absurd h (by decide)
    · exact absurd h (by decide)
    · exact absurd h (by decide)
    · exact absurd h (by decide)
    · exact hbc.1 h
    · rcases hdc _ h with h2 | h2
      · rw [show ('\n' : Char).isDigit = false from by decide] at h2
        exact Bool.false_ne_true h2
      · exact absurd h2 (by decide)
  · intro hmem
    rcases synth_mem _ bare date hmem with h | h | h | h | h | h | h
    · exact absurd h (by decide)
    · exact absurd h (by decide)
    · exact absurd h (by decide)
    · exact absurd h (by decide)
    · exact absurd h (by decide)
    · exact hbc.2 h
    · rcases hdc _ h with h2 | h2
      · rw [show ('\r' : Char).isDigit = false from by decide] at h2
        exact Bool.false_ne_true h2
      · exact absurd h2 (by decide)

theorem emptied_sectionOK (hdr : String) (hh : hdrOK hdr) (u : Section)
    (hu : sectionOK hdr u) (hk : u.kind = SecKind.unreleased) :
    sectionOK hdr { header := u.header, kind := SecKind.unreleased, rawContent := "" } := by
  refine ⟨?_, hu.2.1, hu.2.2.1, hu.2.2.2.1, ?_, ?_⟩
  · show classify hdr u.header = some SecKind.unreleased
    rw [hu.1, hk]
  · show '\r' ∉ ("" : String).data
    simp
  · intro l hl
    rw [show toLines "" = [""] from rfl] at hl
    rw [List.mem_singleton.mp hl]
    exact classify_empty_none hdr hh

theorem newSec_sectionOK (hdr : String) (hh : hdrOK hdr) (bare date raw : String)
    (hb : isBareVersion bare = true) (hd : isDateYMD date.data = true)
    (hbc : '\n' ∉ bare.data ∧ '\r' ∉ bare.data)
    (hraw : '\r' ∉ raw.data) (hlines : ∀ l ∈ toLines raw, classify hdr l = none) :
    sectionOK hdr { header := "## v" ++ bare ++ " (" ++ date ++ ")"
                    kind := SecKind.version bare (some date), rawContent := raw } := by
  have hclean := synth_header_clean bare date hbc hd
  exact ⟨classify_synth hdr bare date hh hb hd,
    isBlankS_head_false _ '#' _ (by rw [synth_header_data]) (by decide),
    hclean.1, hclean.2, hraw, hlines⟩

/-- C2 counterexample: promoting to the version "!!" succeeds and writes
the synthesized header, but the reparsed document does not recognize it,
so `hasVersion` is false immediately afterwards, refuting the claim's
"afterwards hasVersion(version) is true" for arbitrary version strings. -/
theorem c2_counterexample :
    promoteUnreleasedToVersion (some exUnrelFeature) "!!" "2025-01-15" defaultUnreleasedHeader
      = Except.ok "## Unreleased\n\n## v!! (2025-01-15)\n\n- Feature\n" ∧
    hasVersion (some "## Unreleased\n\n## v!! (2025-01-15)\n\n- Feature\n") "!!" = false :=
  ⟨by rfl, by decide⟩

/-- C2 (amended). For a well-formed header literal, a version whose
bare form is in recognizable shape, a date in YYYY-MM-DD shape, and a
file whose first Unreleased section is non-empty,
`promoteUnreleasedToVersion` succeeds and the written document reparses
to: the Unreleased section present-but-empty first, then a new version
section headed `## v<bare> (<date>)` holding exactly the prior
Unreleased content up to blank-line normalization, then the remaining
pre-existing sections in order, each up to blank-line normalization;
afterwards `getUnreleasedContent` is absent and the version is
retrievable (`hasVersion` is true under the default header). -/
theorem c2_promote_amended (file : Option String) (v date hdr : String) (u : Section)
    (hh : hdrOK hdr)
    (hb : isBareVersion (stripV v) = true)
    (hd : isDateYMD date.data = true)
    (hvc : '\n' ∉ (stripV v).data ∧ '\r' ∉ (stripV v).data)
    (hu : findFirstUnrel (parseChangelog hdr file) = some u)
    (hne : (trimS u.rawContent == "") = false) :
    ∃ out, promoteUnreleasedToVersion file v date hdr = Except.ok out ∧
      parseChangelog hdr (some out)
        = { header := u.header, kind := SecKind.unreleased, rawContent := "" } ::
          { header := "## v" ++ stripV v ++ " (" ++ date ++ ")"
            kind := SecKind.version (stripV v) (some date)
            rawContent := normRaw u.rawContent } ::
          (removeFirstUnrel (parseChangelog hdr file)).map normSec ∧
      getUnreleasedContent (some out) hdr = none ∧
      stripV v ∈ (parseChangelog hdr (some out)).filterMap sectionVersion ∧
      (hdr = defaultUnreleasedHeader → hasVersion (some out) v = true) := by
  cases file with
  | none => exact Option.noConfusion hu
  | some c =>
    have hdOK : docOK hdr (parseDoc hdr c) := parse_wf hdr c hh
    have hu2 : List.find? isUnrelSec (parseDoc hdr c).sections = some u := hu
    have humem : u ∈ (parseDoc hdr c).sections := List.mem_of_find?_eq_some hu2
    have huP : isUnrelSec u = true := List.find?_some hu2
    have huOK : sectionOK hdr u := hdOK.2 u humem
    have hk : u.kind = SecKind.unreleased := kind_of_isUnrelSec u huP
    obtain ⟨D, hD⟩ : ∃ D : Document,
        D = { preambleLines := (parseDoc hdr c).preambleLines
              sections :=
                { header := u.header, kind := SecKind.unreleased, rawContent := "" } ::
                { header := "## v" ++ stripV v ++ " (" ++ date ++ ")"
                  kind := SecKind.version (stripV v) (some date)
                  rawContent := u.rawContent } ::
                removeFirstUnrel (parseDoc hdr c).sections } := ⟨_, rfl⟩
    have hDok : docOK hdr D := by
      rw [hD]
      constructor
      · exact hdOK.1
      · intro s hs
        rcases List.mem_cons.mp hs with h1 | h1
        · rw [h1]
          exact emptied_sectionOK hdr hh u huOK hk
        · rcases List.mem_cons.mp h1 with h2 | h2
          · rw [h2]
            exact newSec_sectionOK hdr hh (stripV v) date u.rawContent hb hd hvc
              huOK.2.2.2.2.1 huOK.2.2.2.2.2
          · exact hdOK.2 s (removeFirstUnrel_subset _ s h2)
    have hparse := parse_render hdr D hh hDok (by rw [hD]; exact List.cons_ne_nil _ _)
    have hok : promoteUnreleasedToVersion (some c) v date hdr = Except.ok (render D) := by
      unfold promoteUnreleasedToVersion
      have hu3 : findFirstUnrel (docOf hdr (some c)).sections = some u := hu2
      dsimp only
      rw [hu3]
      dsimp only
      rw [hne, if_neg Bool.false_ne_true, hD]
      rfl
    have hsecs : parseChangelog hdr (some (render D))
        = { header := u.header, kind := SecKind.unreleased, rawContent := "" } ::
          { header := "## v" ++ stripV v ++ " (" ++ date ++ ")"
            kind := SecKind.version (stripV v) (some date)
            rawContent := normRaw u.rawContent } ::
          (removeFirstUnrel (parseChangelog hdr (some c))).map normSec := by
      show (parseDoc hdr (render D)).sections = _
      rw [hparse, hD]
      rfl
    have hmem : stripV v ∈ (parseChangelog hdr (some (render D))).filterMap sectionVersion := by
      rw [hsecs]
      exact List.mem_filterMap.mpr ⟨_, List.mem_cons_of_mem _ (List.mem_cons_self _ _), rfl⟩
    have hgu : getUnreleasedContent (some (render D)) hdr = none := by
      unfold getUnreleasedContent
      dsimp only
      have hs2 : (parseDoc hdr (render D)).sections
          = { header := u.header, kind := SecKind.unreleased, rawContent := "" } ::
            { header := "## v" ++ stripV v ++ " (" ++ date ++ ")"
              kind := SecKind.version (stripV v) (some date)
              rawContent := normRaw u.rawContent } ::
            (removeFirstUnrel (parseChangelog hdr (some c))).map normSec := hsecs
      rw [hs2, List.find?_cons_of_pos _ (show isUnrelSec
        { header := u.header, kind := SecKind.unreleased, rawContent := "" } = true from rfl)]
      rfl
    exact ⟨render D, hok, hsecs, hgu, hmem, fun hdef => by
      subst hdef
      show ((parseChangelog defaultUnreleasedHeader (some (render D))).filterMap
        sectionVersion).elem (stripV v) = true
      exact List.elem_iff.mpr hmem⟩

/-- Witness for C2 (amended): a concrete promote of `exUnrelFeature` to
version 1.2.3, with every hypothesis discharged by computation. -/
theorem c2_promote_amended_witness :
    hdrOK defaultUnreleasedHeader ∧
    (∃ out, promoteUnreleasedToVersion (some exUnrelFeature) "1.2.3" "2025-01-15"
        defaultUnreleasedHeader = Except.ok out ∧
      parseChangelog defaultUnreleasedHeader (some out)
        = { header := "## Unreleased", kind := SecKind.unreleased, rawContent := "" } ::
          { header := "## v" ++ stripV "1.2.3" ++ " (" ++ "2025-01-15" ++ ")"
            kind := SecKind.version (stripV "1.2.3") (some "2025-01-15")
            rawContent := normRaw "- Feature" } ::
          (removeFirstUnrel (parseChangelog defaultUnreleasedHeader
            (some exUnrelFeature))).map normSec ∧
      getUnreleasedContent (some out) defaultUnreleasedHeader = none ∧
      stripV "1.2.3" ∈ (parseChangelog defaultUnreleasedHeader (some out)).filterMap
        sectionVersion ∧
      (defaultUnreleasedHeader = defaultUnreleasedHeader →
        hasVersion (some out) "1.2.3" = true)) :=
  ⟨⟨by decide, by decide, by decide, by decide⟩,
    c2_promote_amended (some exUnrelFeature) "1.2.3" "2025-01-15" defaultUnreleasedHeader
      { header := "## Unreleased", kind := SecKind.unreleased, rawContent := "- Feature" }
      ⟨by decide, by decide, by decide, by decide⟩ (by decide) (by decide)
      ⟨by decide, by decide⟩ (by decide) (by decide)⟩

/-! ### Appending formatted entries: decomposition lemmas -/

theorem splitNl_append_mid (x y : List Char) :
    splitNl (x ++ '\n' :: y) = splitNl x ++ splitNl y := by
  induction x with
  | nil =>
    rw [List.nil_append]
    show splitNl ('\n' :: y) = [[]] ++ splitNl y
    simp only [splitNl, if_pos rfl]
    rfl
  | cons c t ih =>
    rw [List.cons_append]
    by_cases hc : c = '\n'
    · simp only [splitNl, if_pos hc, ih]
      rfl
    · simp only [splitNl, if_neg hc, ih]
      cases hs : splitNl t with
      | nil => exact absurd hs (splitNl_ne_nil t)
      | cons l0 ls0 => simp

theorem toLines_append_nl (a b : String) (ha : '\r' ∉ a.data) (hb : '\r' ∉ b.data) :
    toLines (a ++ "\n" ++ b) = toLines a ++ toLines b := by
  have hdata : (a ++ "\n" ++ b).data = a.data ++ '\n' :: b.data := by
    rw [String.data_append, String.data_append]
    show (a.data ++ ['\n']) ++ b.data = a.data ++ '\n' :: b.data
    simp
  have hclean : '\r' ∉ a.data ++ '\n' :: b.data := by
    intro hm
    rcases List.mem_append.mp hm with h | h
    · exact ha h
    · rcases List.mem_cons.mp h with h2 | h2
      · exact absurd h2 (by decide)
      · exact hb h2
  unfold toLines
  rw [hdata, normCR_eq_self _ hclean, splitNl_append_mid, List.map_append,
    normCR_eq_self _ ha, normCR_eq_self _ hb]

theorem dropTrailBlanks_all_nonblank (ls : List String)
    (h : ∀ l ∈ ls, isBlankS l = false) : dropTrailBlanks ls = ls := by
  induction ls with
  | nil => rfl
  | cons a t ih =>
    show (match dropTrailBlanks t with
      | [] => if isBlankS a then [] else [a]
      | r => a :: r) = a :: t
    rw [ih (fun l hl => h l (List.mem_cons_of_mem _ hl))]
    cases t with
    | nil => rw [if_neg (by rw [h a (List.mem_cons_self _ _)]; exact Bool.false_ne_true)]
    | cons x r => rfl

theorem suffix_dropWhile_append {α : Type} (p : α → Bool) (X : List α) (b : α) (B2 : List α)
    (hb : p b = false) : (b :: B2) <:+ (X ++ b :: B2).dropWhile p := by
  induction X with
  | nil =>
    rw [List.nil_append, List.dropWhile_cons, if_neg (by rw [hb]; exact Bool.false_ne_true)]
  | cons x t ih =>
    rw [List.cons_append, List.dropWhile_cons]
    split
    · exact ih
    · exact ⟨x :: t, rfl⟩

theorem squeezeTrim_suffix_nonblank (A : List String) (b : String) (B2 : List String)
    (hBnb : ∀ l ∈ b :: B2, isBlankS l = false) :
    (b :: B2) <:+ squeezeTrim (A ++ b :: B2) := by
  unfold squeezeTrim
  rw [collapse_append_nonblank A b B2 (hBnb b (List.mem_cons_self _ _)),
    collapse_all_nonblank _ hBnb,
    dropTrailBlanks_append_right _ _ (by
      rw [dropTrailBlanks_all_nonblank _ hBnb]
      exact List.cons_ne_nil _ _),
    dropTrailBlanks_all_nonblank _ hBnb]
  exact suffix_dropWhile_append isBlankS _ b B2 (hBnb b (List.mem_cons_self _ _))

theorem mem_joinNl (lls : List (List Char)) (l : List Char) (hl : l ∈ lls)
    (c : Char) (hc : c ∈ l) : c ∈ joinNl lls := by
  induction lls with
  | nil => exact absurd hl (List.not_mem_nil l)
  | cons l0 ls ih =>
    cases ls with
    | nil =>
      rw [List.mem_singleton.mp hl] at hc
      exact hc
    | cons l1 ls1 =>
      show c ∈ l0 ++ '\n' :: joinNl (l1 :: ls1)
      rcases List.mem_cons.mp hl with h | h
      · exact List.mem_append.mpr (Or.inl (h ▸ hc))
      · exact List.mem_append.mpr (Or.inr (List.mem_cons_of_mem _ (ih h)))

theorem mem_dropWhile_of_not {α : Type} (p : α → Bool) (l : List α) (c : α)
    (hc : c ∈ l) (hp : p c = false) : c ∈ l.dropWhile p := by
  have hsplit : l.takeWhile p ++ l.dropWhile p = l := List.takeWhile_append_dropWhile p l
  rw [← hsplit] at hc
  rcases List.mem_append.mp hc with h | h
  · have := List.mem_takeWhile_imp h
    rw [hp] at this
    exact absurd this (by simp)
  · exact h

theorem trimS_ne_empty (s : String) (c : Char) (hc : c ∈ s.data)
    (hw : c.isWhitespace = false) : (trimS s == "") = false := by
  apply beq_eq_false_iff_ne.mpr
  intro heq
  have h1 : trimChars s.data = [] := by
    have := congrArg String.data heq
    exact this
  have h2 : c ∈ trimChars s.data := by
    unfold trimChars
    have h3 := mem_dropWhile_of_not Char.isWhitespace s.data c hc hw
    have h4 : c ∈ (s.data.dropWhile Char.isWhitespace).reverse := List.mem_reverse.mpr h3
    have h5 := mem_dropWhile_of_not Char.isWhitespace _ c h4 hw
    exact List.mem_reverse.mpr h5
  rw [h1] at h2
  exact absurd h2 (List.not_mem_nil c)

theorem isUnrelSec_normSec (s : Section) : isUnrelSec (normSec s) = isUnrelSec s := rfl

theorem find?_map_normSec (ss : List Section) :
    (ss.map normSec).find? isUnrelSec = (ss.find? isUnrelSec).map normSec := by
  induction ss with
  | nil => rfl
  | cons a t ih =>
    rw [List.map_cons]
    by_cases ha : isUnrelSec a = true
    · rw [List.find?_cons_of_pos _ (by rw [isUnrelSec_normSec]; exact ha),
        List.find?_cons_of_pos _ ha]
      rfl
    · rw [List.find?_cons_of_neg _ (by rw [isUnrelSec_normSec]; exact ha),
        List.find?_cons_of_neg _ ha, ih]

theorem updateFirstUnrel_find? (f : String → String) (ss : List Section) (u : Section)
    (hu : ss.find? isUnrelSec = some u) :
    (updateFirstUnrel f ss).find? isUnrelSec
      = some { u with rawContent := f u.rawContent } := by
  induction ss with
  | nil => exact Option.noConfusion hu
  | cons a t ih =>
    unfold updateFirstUnrel
    by_cases ha : isUnrelSec a = true
    · rw [List.find?_cons_of_pos _ ha] at hu
      injection hu with hu2
      rw [if_pos ha, List.find?_cons_of_pos _ (show isUnrelSec
        { a with rawContent := f a.rawContent } = true from ha), hu2]
    · rw [List.find?_cons_of_neg _ ha] at hu
      rw [if_neg ha, List.find?_cons_of_neg _ ha, ih hu]

theorem updateFirstUnrel_mem_cases (f : String → String) (ss : List Section) (s : Section)
    (h : s ∈ updateFirstUnrel f ss) :
    s ∈ ss ∨ ∃ u ∈ ss, s = { u with rawContent := f u.rawContent } := by
  induction ss with
  | nil => exact absurd h (List.not_mem_nil s)
  | cons a t ih =>
    unfold updateFirstUnrel at h
    by_cases ha : isUnrelSec a = true
    · rw [if_pos ha] at h
      rcases List.mem_cons.mp h with h1 | h1
      · exact Or.inr ⟨a, List.mem_cons_self _ _, h1⟩
      · exact Or.inl (List.mem_cons_of_mem _ h1)
    · rw [if_neg ha] at h
      rcases List.mem_cons.mp h with h1 | h1
      · exact Or.inl (h1 ▸ List.mem_cons_self _ _)
      · rcases ih h1 with h2 | ⟨u, hu, h3⟩
        · exact Or.inl (List.mem_cons_of_mem _ h2)
        · exact Or.inr ⟨u, List.mem_cons_of_mem _ hu, h3⟩

theorem updateFirstUnrel_ne_nil (f : String → String) (ss : List Section) (h : ss ≠ []) :
    updateFirstUnrel f ss ≠ [] := by
  cases ss with
  | nil => exact absurd rfl h
  | cons a t =>
    unfold updateFirstUnrel
    by_cases ha : isUnrelSec a = true
    · rw [if_pos ha]
      exact List.cons_ne_nil _ _
    · rw [if_neg ha]
      exact List.cons_ne_nil _ _

theorem isBlankS_hdr_false (hdr : String) (hh : hdrOK hdr) : isBlankS hdr = false := by
  cases hb : isBlankS hdr with
  | false => rfl
  | true =>
    exfalso
    have htr : trimChars hdr.data = [] := by
      unfold trimChars
      rw [List.dropWhile_eq_nil_iff.mpr (all_ws_of_blank hdr hb)]
      rfl
    have hhd := hh.1
    rw [show (trimS hdr).data = trimChars hdr.data from rfl, htr] at hhd
    exact Option.noConfusion hhd

theorem classify_hdr_self (hdr : String) : classify hdr hdr = some SecKind.unreleased := by
  unfold classify
  rw [show isUnreleasedLine hdr hdr = true from by
    unfold isUnreleasedLine
    rw [show (trimS hdr == trimS hdr) = true from beq_iff_eq.mpr rfl]
    rfl]
  rfl

theorem synth_unrel_sectionOK (hdr : String) (hh : hdrOK hdr) :
    sectionOK hdr { header := hdr, kind := SecKind.unreleased, rawContent := "" } := by
  refine ⟨classify_hdr_self hdr, isBlankS_hdr_false hdr hh, hh.2.2.1, hh.2.2.2, ?_, ?_⟩
  · show '\r' ∉ ("" : String).data
    simp
  · intro l hl
    rw [show toLines "" = [""] from rfl] at hl
    rw [List.mem_singleton.mp hl]
    exact classify_empty_none hdr hh

theorem block_clean (entries : List CommitEntry)
    (hfmt : ∀ e ∈ entries, '\n' ∉ (formatCommitEntry e).data ∧
      '\r' ∉ (formatCommitEntry e).data) :
    '\r' ∉ (unlines (entries.map formatCommitEntry)).data := by
  unfold unlines
  show '\r' ∉ joinNl ((entries.map formatCommitEntry).map String.data)
  apply joinNl_no_cr
  intro x hx
  rcases List.mem_map.mp hx with ⟨y, hy, hxy⟩
  rcases List.mem_map.mp hy with ⟨e, he, hye⟩
  subst hxy
  subst hye
  exact (hfmt e he).2

theorem toLines_block (entries : List CommitEntry) (hne : entries ≠ [])
    (hfmt : ∀ e ∈ entries, '\n' ∉ (formatCommitEntry e).data ∧
      '\r' ∉ (formatCommitEntry e).data) :
    toLines (unlines (entries.map formatCommitEntry)) = entries.map formatCommitEntry := by
  apply toLines_unlines
  · intro hq
    exact hne (List.map_eq_nil_iff.mp hq)
  · intro l hl
    rcases List.mem_map.mp hl with ⟨e, he, hle⟩
    rw [← hle]
    exact hfmt e he

theorem toLines_appendEntries (old : String) (entries : List CommitEntry)
    (hold : '\r' ∉ old.data) (hne : entries ≠ [])
    (hfmt : ∀ e ∈ entries, '\n' ∉ (formatCommitEntry e).data ∧
      '\r' ∉ (formatCommitEntry e).data) :
    ∃ A, toLines (appendEntriesText old entries) = A ++ entries.map formatCommitEntry ∧
      ∀ l ∈ A, l ∈ toLines old := by
  unfold appendEntriesText
  dsimp only
  by_cases ht : (trimS old == "") = true
  · rw [if_pos ht]
    exact ⟨[], by rw [toLines_block entries hne hfmt, List.nil_append],
      fun l hl => absurd hl (List.not_mem_nil l)⟩
  · rw [if_neg ht]
    refine ⟨toLines old, ?_, fun l hl => hl⟩
    rw [toLines_append_nl old _ hold (block_clean entries hfmt),
      toLines_block entries hne hfmt]

theorem appendEntries_clean (old : String) (entries : List CommitEntry)
    (hold : '\r' ∉ old.data)
    (hfmt : ∀ e ∈ entries, '\n' ∉ (formatCommitEntry e).data ∧
      '\r' ∉ (formatCommitEntry e).data) :
    '\r' ∉ (appendEntriesText old entries).data := by
  unfold appendEntriesText
  dsimp only
  by_cases ht : (trimS old == "") = true
  · rw [if_pos ht]
    exact block_clean entries hfmt
  · rw [if_neg ht]
    intro hm
    rw [String.data_append, String.data_append] at hm
    rcases List.mem_append.mp hm with h | h
    · rcases List.mem_append.mp h with h2 | h2
      · exact hold h2
      · exact absurd h2 (by decide)
    · exact block_clean entries hfmt h

theorem updatedSec_sectionOK (hdr : String) (hh : hdrOK hdr) (u : Section)
    (huOK : sectionOK hdr u) (entries : List CommitEntry) (hne : entries ≠ [])
    (hfmt : ∀ e ∈ entries, '\n' ∉ (formatCommitEntry e).data ∧
      '\r' ∉ (formatCommitEntry e).data) :
    sectionOK hdr { u with rawContent := appendEntriesText u.rawContent entries } := by
  refine ⟨huOK.1, huOK.2.1, huOK.2.2.1, huOK.2.2.2.1, ?_, ?_⟩
  · exact appendEntries_clean _ _ huOK.2.2.2.2.1 hfmt
  · intro l hl
    obtain ⟨A, hA, hAsub⟩ := toLines_appendEntries u.rawContent entries
      huOK.2.2.2.2.1 hne hfmt
    have hl2 : l ∈ A ++ entries.map formatCommitEntry := by
      rw [← hA]
      exact hl
    rcases List.mem_append.mp hl2 with h | h
    · exact huOK.2.2.2.2.2 l (hAsub l h)
    · rcases List.mem_map.mp h with ⟨e, he, hle⟩
      rw [← hle]
      exact classify_fmt_none hdr hh e

theorem addTo_master (hdr : String) (hh : hdrOK hdr) (pre : List String) (SS : List Section)
    (entries : List CommitEntry) (hne : entries ≠ [])
    (hfmt : ∀ e ∈ entries, '\n' ∉ (formatCommitEntry e).data ∧
      '\r' ∉ (formatCommitEntry e).data)
    (hpre : ∀ l ∈ pre, classify hdr l = none ∧ '\n' ∉ l.data ∧ '\r' ∉ l.data)
    (hSS : ∀ s ∈ SS, sectionOK hdr s)
    (u : Section) (hu : SS.find? isUnrelSec = some u) :
    ∃ u2, getUnreleasedContent (some (render
        { preambleLines := pre
          sections := updateFirstUnrel (fun r => appendEntriesText r entries) SS })) hdr
      = some u2 ∧ entries.map formatCommitEntry <:+ toLines u2 := by
  have hne2 : SS ≠ [] := by
    intro h
    rw [h] at hu
    exact Option.noConfusion hu
  have humem := List.mem_of_find?_eq_some hu
  have huOK := hSS u humem
  obtain ⟨D, hD⟩ : ∃ D : Document, D =
      { preambleLines := pre
        sections := updateFirstUnrel (fun r => appendEntriesText r entries) SS } := ⟨_, rfl⟩
  have hDok : docOK hdr D := by
    rw [hD]
    constructor
    · exact hpre
    · intro s hs
      rcases updateFirstUnrel_mem_cases _ SS s hs with h1 | ⟨w, hw, h2⟩
      · exact hSS s h1
      · rw [h2]
        exact updatedSec_sectionOK hdr hh w (hSS w hw) entries hne hfmt
  have hparse := parse_render hdr D hh hDok
    (by rw [hD]; exact updateFirstUnrel_ne_nil _ _ hne2)
  have hfind : (parseDoc hdr (render D)).sections.find? isUnrelSec
      = some (normSec { u with rawContent := appendEntriesText u.rawContent entries }) := by
    rw [hparse, hD]
    dsimp only
    rw [find?_map_normSec, updateFirstUnrel_find? _ SS u hu]
    rfl
  obtain ⟨A, hA, hAsub⟩ := toLines_appendEntries u.rawContent entries
    huOK.2.2.2.2.1 hne hfmt
  obtain ⟨e0, erest, hel⟩ : ∃ e0 erest, entries = e0 :: erest := by
    cases entries with
    | nil => exact absurd rfl hne
    | cons a b => exact ⟨a, b, rfl⟩
  have hfmtnb : ∀ l ∈ entries.map formatCommitEntry, isBlankS l = false := by
    intro l hl
    rcases List.mem_map.mp hl with ⟨e, he, hle⟩
    rw [← hle]
    exact fmt_nonblank e
  have hsuffix : entries.map formatCommitEntry <:+
      squeezeTrim (toLines (appendEntriesText u.rawContent entries)) := by
    rw [hA, hel, List.map_cons]
    refine squeezeTrim_suffix_nonblank A _ _ ?_
    rw [← List.map_cons, ← hel]
    exact hfmtnb
  have hmemfmt : formatCommitEntry e0
      ∈ squeezeTrim (toLines (appendEntriesText u.rawContent entries)) := by
    apply hsuffix.subset
    rw [hel, List.map_cons]
    exact List.mem_cons_self _ _
  have hnbfalse : (trimS (normRaw (appendEntriesText u.rawContent entries)) == "")
      = false := by
    obtain ⟨tc, htc⟩ := fmt_head e0
    apply trimS_ne_empty _ '-' ?_ (by decide)
    show '-' ∈ (unlines (squeezeTrim (toLines (appendEntriesText u.rawContent
      entries)))).data
    unfold unlines
    show '-' ∈ joinNl ((squeezeTrim (toLines (appendEntriesText u.rawContent
      entries))).map String.data)
    apply mem_joinNl _ (formatCommitEntry e0).data ?_ '-'
      (by rw [htc]; exact List.mem_cons_self _ _)
    exact List.mem_map_of_mem _ hmemfmt
  have hcleanL : ∀ l ∈ squeezeTrim (toLines (appendEntriesText u.rawContent entries)),
      '\n' ∉ l.data ∧ '\r' ∉ l.data := by
    intro l hl
    rcases mem_squeezeTrim_cases _ l hl with h1 | h1
    · rw [h1]
      exact ⟨by simp, by simp⟩
    · exact mem_toLines_clean _ l h1
  have hLne : squeezeTrim (toLines (appendEntriesText u.rawContent entries)) ≠ [] := by
    intro hq
    rw [hq] at hsuffix
    obtain ⟨t, ht⟩ := hsuffix
    rcases List.append_eq_nil.mp ht with ⟨_, h2⟩
    exact hne (List.map_eq_nil_iff.mp h2)
  refine ⟨normRaw (appendEntriesText u.rawContent entries), ?_, ?_⟩
  · rw [← hD]
    unfold getUnreleasedContent
    dsimp only
    rw [hfind]
    dsimp only [normSec]
    rw [hnbfalse, if_neg Bool.false_ne_true]
  · show entries.map formatCommitEntry <:+
      toLines (normRaw (appendEntriesText u.rawContent entries))
    unfold normRaw
    rw [toLines_unlines _ hLne hcleanL]
    exact hsuffix

/-- C5 counterexample: a commit message with embedded newlines smuggles
a version-header line into the written Unreleased block; on reparse the
block is cut at that header, so `getUnreleasedContent` does not contain
the formatted entry, refuting the claim for arbitrary entries. -/
theorem c5_counterexample :
    addToUnreleased (some exUnrelOld) [exEntryEvil] defaultUnreleasedHeader
      = some "## Unreleased\n\n- Old\n- Evil\n## v9.9.9\nmore by @u\n" ∧
    getUnreleasedContent
        (some "## Unreleased\n\n- Old\n- Evil\n## v9.9.9\nmore by @u\n")
        defaultUnreleasedHeader = some "- Old\n- Evil" ∧
    containsSub (lowerData (formatCommitEntry exEntryEvil))
      (lowerData "- Old\n- Evil") = false :=
  ⟨by rfl, by rfl, by decide⟩

/-- C5 (amended). `addToUnreleased` is a no-op on the empty entry list;
for a non-empty entry list whose formatted lines are single-line, it
writes a file (synthesizing a title and an empty Unreleased section
when the file is missing, inserting an empty Unreleased section when it
is missing) whose reparsed Unreleased content ends with exactly the
formatted entries in input order. -/
theorem c5_addToUnreleased_amended (file : Option String) (entries : List CommitEntry)
    (hdr : String) (hh : hdrOK hdr)
    (hchg : classify hdr "# Changelog" = none)
    (hfmt : ∀ e ∈ entries, '\n' ∉ (formatCommitEntry e).data ∧
      '\r' ∉ (formatCommitEntry e).data) :
    addToUnreleased file [] hdr = file ∧
    (entries ≠ [] → ∃ out u2, addToUnreleased file entries hdr = some out ∧
      getUnreleasedContent (some out) hdr = some u2 ∧
      entries.map formatCommitEntry <:+ toLines u2) := by
  constructor
  · rfl
  · intro hne
    have hEne : entries.isEmpty = false := by
      cases entries with
      | nil => exact absurd rfl hne
      | cons a b => rfl
    unfold addToUnreleased
    rw [hEne, if_neg Bool.false_ne_true]
    dsimp only
    cases file with
    | none =>
      obtain ⟨u2, hg, hs⟩ := addTo_master hdr hh ["# Changelog"]
        [{ header := hdr, kind := SecKind.unreleased, rawContent := "" }] entries hne hfmt
        (by
          intro l hl
          rw [List.mem_singleton.mp hl]
          exact ⟨hchg, by decide, by decide⟩)
        (by
          intro s hs2
          rw [List.mem_singleton.mp hs2]
          exact synth_unrel_sectionOK hdr hh)
        { header := hdr, kind := SecKind.unreleased, rawContent := "" }
        (List.find?_cons_of_pos _ (show isUnrelSec
          { header := hdr, kind := SecKind.unreleased, rawContent := "" } = true from rfl))
      exact ⟨_, u2, rfl, hg, hs⟩
    | some c =>
      have hdOK := parse_wf hdr c hh
      dsimp only
      by_cases hany : (parseDoc hdr c).sections.any isUnrelSec = true
      · rw [if_pos hany]
        obtain ⟨u, hu⟩ : ∃ u, (parseDoc hdr c).sections.find? isUnrelSec = some u := by
          cases hf : (parseDoc hdr c).sections.find? isUnrelSec with
          | none =>
            exfalso
            rcases List.any_eq_true.mp hany with ⟨x, hx, hpx⟩
            exact (List.find?_eq_none.mp hf x hx) hpx
          | some u => exact ⟨u, rfl⟩
        obtain ⟨u2, hg, hs⟩ := addTo_master hdr hh (parseDoc hdr c).preambleLines
          (parseDoc hdr c).sections entries hne hfmt hdOK.1 hdOK.2 u hu
        exact ⟨_, u2, rfl, hg, hs⟩
      · rw [if_neg hany]
        obtain ⟨u2, hg, hs⟩ := addTo_master hdr hh (parseDoc hdr c).preambleLines
          ({ header := hdr, kind := SecKind.unreleased, rawContent := "" }
            :: (parseDoc hdr c).sections) entries hne hfmt hdOK.1
          (by
            intro s hs2
            rcases List.mem_cons.mp hs2 with h1 | h1
            · rw [h1]
              exact synth_unrel_sectionOK hdr hh
            · exact hdOK.2 s h1)
          { header := hdr, kind := SecKind.unreleased, rawContent := "" }
          (List.find?_cons_of_pos _ (show isUnrelSec
            { header := hdr, kind := SecKind.unreleased, rawContent := "" } = true from rfl))
        exact ⟨_, u2, rfl, hg, hs⟩

/-- Witness for C5 (amended): adding one concrete entry to `exBasic`,
with every hypothesis discharged by computation. -/
theorem c5_addToUnreleased_amended_witness :
    hdrOK defaultUnreleasedHeader ∧
    (addToUnreleased (some exBasic) [] defaultUnreleasedHeader = some exBasic ∧
    ([exEntryA] ≠ [] → ∃ out u2,
      addToUnreleased (some exBasic) [exEntryA] defaultUnreleasedHeader = some out ∧
      getUnreleasedContent (some out) defaultUnreleasedHeader = some u2 ∧
      [exEntryA].map formatCommitEntry <:+ toLines u2)) :=
  ⟨⟨by decide, by decide, by decide, by decide⟩,
    c5_addToUnreleased_amended (some exBasic) [exEntryA] defaultUnreleasedHeader
      ⟨by decide, by decide, by decide, by decide⟩ (by decide) (by decide)⟩
